import Mathlib

/-!
# Brokkr: maths library, object pool and transform manager

A shallow embedding of `include/maths.h` (vectors, quaternions, row-major 4x4
matrices) over an arbitrary commutative ring or field `K` standing for exact
arithmetic, together with models of the packed freelist and of the transform
manager, and the properties proved about them.
-/

set_option autoImplicit false

namespace bkk
namespace maths

/-! ## Definitions: `maths.h` -/

/-- The type `Vector<T, 3>`: the three components `x`, `y`, `z` (the union with `data[3]`). -/
structure Vector3 (K : Type) where
  x : K
  y : K
  z : K
deriving DecidableEq

/-- The type `Quaternion<T>`: the four components `x`, `y`, `z`, `w`. -/
structure Quaternion (K : Type) where
  x : K
  y : K
  z : K
  w : K
deriving DecidableEq

/-- The type `Matrix<T, 4, 4>`: the array `T data[16]`, stored in row major order. -/
@[ext]
structure Matrix44 (K : Type) where
  data : Fin 16 → K

/-- The sum `operator+(const Vector<T,N>&, const Vector<T,N>&)` at `N = 3`: the loop adds
component by component. -/
def Vector3.add {K : Type} [Add K] (v0 v1 : Vector3 K) : Vector3 K :=
  { x := v0.x + v1.x, y := v0.y + v1.y, z := v0.z + v1.z }

instance {K : Type} [Add K] : Add (Vector3 K) := ⟨Vector3.add⟩

/-- The constant `VEC3_ZERO = vec3(0.0f, 0.0f, 0.0f)`. -/
def VEC3_ZERO {K : Type} [Zero K] : Vector3 K := ⟨0, 0, 0⟩

/-- The constant `VEC3_ONE = vec3(1.0f, 1.0f, 1.0f)`. -/
def VEC3_ONE {K : Type} [One K] : Vector3 K := ⟨1, 1, 1⟩

/-- The constant `QUAT_UNIT = quat(0.0f, 0.0f, 0.0f, 1.0f)`. -/
def QUAT_UNIT {K : Type} [Zero K] [One K] : Quaternion K := ⟨0, 0, 0, 1⟩

namespace Matrix44

variable {K : Type}

/-- The default constructor: `memset(data, 0, 16 * sizeof(T))`. -/
def zero [Zero K] : Matrix44 K := ⟨fun _ => 0⟩

/-- Reading `m[index]` (`operator[]`). -/
def get (m : Matrix44 K) (index : Fin 16) : K := m.data index

/-- Writing `m[index] = v` (`operator[]` used as an lvalue). -/
def set (m : Matrix44 K) (index : Fin 16) (v : K) : Matrix44 K :=
  ⟨fun k => if k = index then v else m.data k⟩

/-- The offset `x * 4 + y` computed by `operator()(u8 x, u8 y)`. -/
def cell (x y : Fin 4) : Fin 16 := ⟨x.val * 4 + y.val, by omega⟩

/-- Reading `m(x, y)`, that is `data[x * 4 + y]`. -/
def entry (m : Matrix44 K) (x y : Fin 4) : K := m.data (cell x y)

/-- The method `setIdentity`: clear the array, then `c00 = c11 = c22 = c33 = 1`
(the union places `c00`, `c11`, `c22`, `c33` at offsets 0, 5, 10, 15). -/
def setIdentity [Zero K] [One K] (_m : Matrix44 K) : Matrix44 K :=
  (((zero.set 15 1).set 10 1).set 5 1).set 0 1

/-- The identity matrix, obtained by `setIdentity` on a fresh matrix. -/
def identity [Zero K] [One K] : Matrix44 K := setIdentity zero

/-- The product `operator*(const Matrix<T,4,4>& m0, const Matrix<T,4,4>& m1)`: the two nested
loops over `i` and `j`, each writing `result(i, j)`. -/
def mul [CommRing K] (m0 m1 : Matrix44 K) : Matrix44 K :=
  (List.finRange 4).foldl (fun result i =>
    (List.finRange 4).foldl (fun result j =>
      result.set (cell i j)
        (m0.entry i 0 * m1.entry 0 j + m0.entry i 1 * m1.entry 1 j
          + m0.entry i 2 * m1.entry 2 j + m0.entry i 3 * m1.entry 3 j)) result) zero

instance [CommRing K] : Mul (Matrix44 K) := ⟨mul⟩

/-- The matrix with the sixteen given coefficients, in array order. -/
def ofEntries (e0 e1 e2 e3 e4 e5 e6 e7 e8 e9 e10 e11 e12 e13 e14 e15 : K) : Matrix44 K :=
  ⟨![e0, e1, e2, e3, e4, e5, e6, e7, e8, e9, e10, e11, e12, e13, e14, e15]⟩

/-- The 4x4 matrix of Mathlib whose `(i, j)` coefficient is `m(i, j)`. -/
def toMatrix (m : Matrix44 K) : Matrix (Fin 4) (Fin 4) K := Matrix.of fun i j => m.entry i j

end Matrix44

open Matrix44

/-- The function `createTransform(translation, scale, rotation)`: the nine products of the
rotation components, then the sixteen writes `result[0] .. result[15]`. -/
def createTransform {K : Type} [CommRing K] (translation scale : Vector3 K)
    (rotation : Quaternion K) : Matrix44 K :=
  let xx := rotation.x * rotation.x
  let yy := rotation.y * rotation.y
  let zz := rotation.z * rotation.z
  let xy := rotation.x * rotation.y
  let xz := rotation.x * rotation.z
  let xw := rotation.x * rotation.w
  let yz := rotation.y * rotation.z
  let yw := rotation.y * rotation.w
  let zw := rotation.z * rotation.w
  let result : Matrix44 K := zero
  let result := result.set 0 (scale.x * (1 - 2 * (yy + zz)))
  let result := result.set 1 (scale.x * (2 * (xy + zw)))
  let result := result.set 2 (scale.x * (2 * (xz - yw)))
  let result := result.set 3 0
  let result := result.set 4 (scale.y * (2 * (xy - zw)))
  let result := result.set 5 (scale.y * (1 - 2 * (xx + zz)))
  let result := result.set 6 (scale.y * (2 * (yz + xw)))
  let result := result.set 7 0
  let result := result.set 8 (scale.z * (2 * (xz + yw)))
  let result := result.set 9 (scale.z * (2 * (yz - xw)))
  let result := result.set 10 (scale.z * (1 - 2 * (xx + yy)))
  let result := result.set 11 0
  let result := result.set 12 translation.x
  let result := result.set 13 translation.y
  let result := result.set 14 translation.z
  let result := result.set 15 1
  result

/-- The sixteen cofactor writes of `invertMatrix`, `result[0] .. result[15]`, on
the caller's `result` (which is taken to be a different object from `m`). -/
def invertMatrixCofactors {K : Type} [CommRing K] (m0 result : Matrix44 K) : Matrix44 K :=
  let m := m0.data
  let result := result.set 0 (m 5 * m 10 * m 15 - m 5 * m 11 * m 14 - m 9 * m 6 * m 15 + m 9 * m 7 * m 14 + m 13 * m 6 * m 11 - m 13 * m 7 * m 10)
  let result := result.set 1 (-m 1 * m 10 * m 15 + m 1 * m 11 * m 14 + m 9 * m 2 * m 15 - m 9 * m 3 * m 14 - m 13 * m 2 * m 11 + m 13 * m 3 * m 10)
  let result := result.set 2 (m 1 * m 6 * m 15 - m 1 * m 7 * m 14 - m 5 * m 2 * m 15 + m 5 * m 3 * m 14 + m 13 * m 2 * m 7 - m 13 * m 3 * m 6)
  let result := result.set 3 (-m 1 * m 6 * m 11 + m 1 * m 7 * m 10 + m 5 * m 2 * m 11 - m 5 * m 3 * m 10 - m 9 * m 2 * m 7 + m 9 * m 3 * m 6)
  let result := result.set 4 (-m 4 * m 10 * m 15 + m 4 * m 11 * m 14 + m 8 * m 6 * m 15 - m 8 * m 7 * m 14 - m 12 * m 6 * m 11 + m 12 * m 7 * m 10)
  let result := result.set 5 (m 0 * m 10 * m 15 - m 0 * m 11 * m 14 - m 8 * m 2 * m 15 + m 8 * m 3 * m 14 + m 12 * m 2 * m 11 - m 12 * m 3 * m 10)
  let result := result.set 6 (-m 0 * m 6 * m 15 + m 0 * m 7 * m 14 + m 4 * m 2 * m 15 - m 4 * m 3 * m 14 - m 12 * m 2 * m 7 + m 12 * m 3 * m 6)
  let result := result.set 7 (m 0 * m 6 * m 11 - m 0 * m 7 * m 10 - m 4 * m 2 * m 11 + m 4 * m 3 * m 10 + m 8 * m 2 * m 7 - m 8 * m 3 * m 6)
  let result := result.set 8 (m 4 * m 9 * m 15 - m 4 * m 11 * m 13 - m 8 * m 5 * m 15 + m 8 * m 7 * m 13 + m 12 * m 5 * m 11 - m 12 * m 7 * m 9)
  let result := result.set 9 (-m 0 * m 9 * m 15 + m 0 * m 11 * m 13 + m 8 * m 1 * m 15 - m 8 * m 3 * m 13 - m 12 * m 1 * m 11 + m 12 * m 3 * m 9)
  let result := result.set 10 (m 0 * m 5 * m 15 - m 0 * m 7 * m 13 - m 4 * m 1 * m 15 + m 4 * m 3 * m 13 + m 12 * m 1 * m 7 - m 12 * m 3 * m 5)
  let result := result.set 11 (-m 0 * m 5 * m 11 + m 0 * m 7 * m 9 + m 4 * m 1 * m 11 - m 4 * m 3 * m 9 - m 8 * m 1 * m 7 + m 8 * m 3 * m 5)
  let result := result.set 12 (-m 4 * m 9 * m 14 + m 4 * m 10 * m 13 + m 8 * m 5 * m 14 - m 8 * m 6 * m 13 - m 12 * m 5 * m 10 + m 12 * m 6 * m 9)
  let result := result.set 13 (m 0 * m 9 * m 14 - m 0 * m 10 * m 13 - m 8 * m 1 * m 14 + m 8 * m 2 * m 13 + m 12 * m 1 * m 10 - m 12 * m 2 * m 9)
  let result := result.set 14 (-m 0 * m 5 * m 14 + m 0 * m 6 * m 13 + m 4 * m 1 * m 14 - m 4 * m 2 * m 13 - m 12 * m 1 * m 6 + m 12 * m 2 * m 5)
  let result := result.set 15 (m 0 * m 5 * m 10 - m 0 * m 6 * m 9 - m 4 * m 1 * m 10 + m 4 * m 2 * m 9 + m 8 * m 1 * m 6 - m 8 * m 2 * m 5)
  result

/-- The value `invertMatrix` stores in `determinant` before testing it:
`m[0] * result[0] + m[1] * result[4] + m[2] * result[8] + m[3] * result[12]`. -/
def invertMatrixDeterminant {K : Type} [CommRing K] (m0 result : Matrix44 K) : K :=
  m0.get 0 * result.get 0 + m0.get 1 * result.get 4 + m0.get 2 * result.get 8
    + m0.get 3 * result.get 12

/-- The function `invertMatrix(m, result)`: the returned flag and the final content of `result`.
When the determinant is nonzero every coefficient is multiplied by its reciprocal
in the loop `for (i = 0; i < 16; i++) result[i] *= determinant`. -/
def invertMatrix {K : Type} [Field K] [DecidableEq K] (m0 result : Matrix44 K) :
    Bool × Matrix44 K :=
  let result := invertMatrixCofactors m0 result
  let determinant := invertMatrixDeterminant m0 result
  if determinant ≠ 0 then
    let determinant := 1 / determinant
    let result := (List.finRange 16).foldl
      (fun result i => result.set i (result.get i * determinant)) result
    (true, result)
  else
    (false, result)

end maths
end bkk

/-! ## Definitions: `maths.h`, vectors, quaternions and inverse transforms -/

namespace bkk
namespace maths

/-- The generic type `Vector<T, N>`: the array `T data[N]`. -/
@[ext]
structure Vector (K : Type) (N : Nat) where
  data : Fin N → K

namespace Vector

variable {K : Type} {N : Nat}

/-- The default constructor: `memset(data, 0, N * sizeof(T))`. -/
def zero [Zero K] : Vector K N := ⟨fun _ => 0⟩

/-- Writing `v.data[i] = a`. -/
def set (v : Vector K N) (i : Fin N) (a : K) : Vector K N :=
  ⟨fun k => if k = i then a else v.data k⟩

/-- The difference `operator-(const Vector<T,N>&, const Vector<T,N>&)`: the loop
writes `result.data[i] = v0.data[i] - v1.data[i]`. -/
def sub [Zero K] [Sub K] (v0 v1 : Vector K N) : Vector K N :=
  (List.finRange N).foldl (fun result i => result.set i (v0.data i - v1.data i)) zero

instance [Zero K] [Sub K] : Sub (Vector K N) := ⟨sub⟩

/-- The product by a scalar on the left, `operator*(const T a, const Vector<T,N>& v0)`:
the loop writes `result.data[i] = v0.data[i] * a`. -/
def smul [Zero K] [Mul K] (a : K) (v0 : Vector K N) : Vector K N :=
  (List.finRange N).foldl (fun result i => result.set i (v0.data i * a)) zero

end Vector

/-- The dot product `dot(v0, v1)`: the loop adds `v0.data[i] * v1.data[i]` to a
result that starts at zero. -/
def dot {K : Type} {N : Nat} [Zero K] [Add K] [Mul K] (v0 v1 : Vector K N) : K :=
  (List.finRange N).foldl (fun result i => result + v0.data i * v1.data i) 0

/-- The function `lengthSquared(v)`: the loop adds `v.data[i] * v.data[i]`. -/
def lengthSquared {K : Type} {N : Nat} [Zero K] [Add K] [Mul K] (v : Vector K N) : K :=
  (List.finRange N).foldl (fun lengthSquared i => lengthSquared + v.data i * v.data i) 0

/-- The function `length(v)`, which is `sqrtf(lengthSquared(v))`; the square root
of `math.h` is a parameter. -/
def length {K : Type} {N : Nat} [Zero K] [Add K] [Mul K] (sqrtf : K → K) (v : Vector K N) : K :=
  sqrtf (lengthSquared v)

/-- The free function `normalize(v)`: the result starts as the zero vector and is
filled with `v.data[i] * (1 / length(v))` only when the length is not zero. -/
def normalize {K : Type} {N : Nat} [Field K] [DecidableEq K] (sqrtf : K → K)
    (v : Vector K N) : Vector K N :=
  let result : Vector K N := Vector.zero
  let vlength := length sqrtf v
  if vlength ≠ 0 then
    let inverselength := 1 / vlength
    (List.finRange N).foldl (fun result i => result.set i (v.data i * inverselength)) result
  else
    result

/-- A division that reports a zero divisor instead of computing with it. -/
def checkedDiv {K : Type} [Field K] [DecidableEq K] (a b : K) : Option K :=
  if b = 0 then none else some (a / b)

/-- The free function `normalize(v)` with its division checked: `none` would mean
that `1.0f / vlength` was evaluated with `vlength` equal to zero. -/
def normalizeChecked {K : Type} {N : Nat} [Field K] [DecidableEq K] (sqrtf : K → K)
    (v : Vector K N) : Option (Vector K N) :=
  let result : Vector K N := Vector.zero
  let vlength := length sqrtf v
  if vlength ≠ 0 then
    match checkedDiv 1 vlength with
    | none => none
    | some inverselength =>
      some ((List.finRange N).foldl
        (fun result i => result.set i (v.data i * inverselength)) result)
  else
    some result

/-- The function `reflect(v, n)`, which is `v - 2.0f * dot(v, n) * n`. -/
def reflect {K : Type} {N : Nat} [CommRing K] (v n : Vector K N) : Vector K N :=
  v - Vector.smul (2 * dot v n) n

/-- The `data[3]` view of a `Vector<T, 3>` (the other member of its union). -/
def Vector3.toVector {K : Type} (v : Vector3 K) : Vector K 3 := ⟨![v.x, v.y, v.z]⟩

/-- The cross product `cross(v0, v1)` of two 3-component vectors. -/
def cross {K : Type} [CommRing K] (v0 v1 : Vector3 K) : Vector3 K :=
  { x := v0.y * v1.z - v0.z * v1.y
    y := v0.z * v1.x - v0.x * v1.z
    z := v0.x * v1.y - v0.y * v1.x }

/-- The method `Vector<T, 3>::normalize()`, which multiplies each component by
`1.0f / length(*this)` without testing the length. -/
def Vector3.normalize {K : Type} [Field K] (sqrtf : K → K) (v : Vector3 K) : Vector3 K :=
  let inverselength := 1 / length sqrtf v.toVector
  { x := v.x * inverselength, y := v.y * inverselength, z := v.z * inverselength }

/-- The constructor `Quaternion(const Vector<T,3>& axis, T angle)`; the functions
`sqrtf`, `sinf` and `cosf` of `math.h` are parameters. -/
def Quaternion.ofAxisAngle {K : Type} [Field K] (sqrtf sinf cosf : K → K) (axis : Vector3 K)
    (angle : K) : Quaternion K :=
  let axisNormalized := Vector3.normalize sqrtf axis
  let halfAngle := -angle * (1 / 2)
  let halfAngleSin := sinf halfAngle
  { x := axisNormalized.x * halfAngleSin
    y := axisNormalized.y * halfAngleSin
    z := axisNormalized.z * halfAngleSin
    w := cosf halfAngle }

/-- The function `quaternionFromAxisAngle(axis, angle)`, which calls the constructor. -/
def quaternionFromAxisAngle {K : Type} [Field K] (sqrtf sinf cosf : K → K) (axis : Vector3 K)
    (angle : K) : Quaternion K :=
  Quaternion.ofAxisAngle sqrtf sinf cosf axis angle

/-- The quaternion product `operator*(const Quaternion<T>& v0, const Quaternion<T>& v1)`. -/
def Quaternion.mul {K : Type} [CommRing K] (v0 v1 : Quaternion K) : Quaternion K :=
  { x := v1.y * v0.z - v1.z * v0.y + v1.w * v0.x + v1.x * v0.w
    y := v1.z * v0.x - v1.x * v0.z + v1.w * v0.y + v1.y * v0.w
    z := v1.x * v0.y - v1.y * v0.x + v1.w * v0.z + v1.z * v0.w
    w := v1.w * v0.w - v1.x * v0.x - v1.y * v0.y - v1.z * v0.z }

instance {K : Type} [CommRing K] : Mul (Quaternion K) := ⟨Quaternion.mul⟩

/-- The squared length `x*x + y*y + z*z + w*w` that `Quaternion<T>::normalize()`
takes the square root of; a unit quaternion is one where it is 1. -/
def Quaternion.lengthSquared {K : Type} [CommRing K] (q : Quaternion K) : K :=
  q.x * q.x + q.y * q.y + q.z * q.z + q.w * q.w

/-- The function `conjugate(q)`, which is `Quaternion<T>(-q.x, -q.y, -q.z, q.w)`. -/
def conjugate {K : Type} [Neg K] (q : Quaternion K) : Quaternion K :=
  ⟨-q.x, -q.y, -q.z, q.w⟩

/-- The function `rotate(const Vector<T,3>& v, const Quaternion<T>& q)`, which
returns the vector part of `q * Quaternion<T>(v.x, v.y, v.z, 0.0) * qConjugate`. -/
def rotate {K : Type} [CommRing K] (v : Vector3 K) (q : Quaternion K) : Vector3 K :=
  let qConjugate := conjugate q
  let result := q * (⟨v.x, v.y, v.z, 0⟩ : Quaternion K) * qConjugate
  ⟨result.x, result.y, result.z⟩

/-- The function `invertTransform(m)`: the sixteen writes `result[0] .. result[15]`. -/
def invertTransform {K : Type} [CommRing K] (m : Matrix44 K) : Matrix44 K :=
  let result : Matrix44 K := Matrix44.zero
  let result := result.set 0 (m.get 0)
  let result := result.set 1 (m.get 4)
  let result := result.set 2 (m.get 8)
  let result := result.set 3 0
  let result := result.set 4 (m.get 1)
  let result := result.set 5 (m.get 5)
  let result := result.set 6 (m.get 9)
  let result := result.set 7 0
  let result := result.set 8 (m.get 2)
  let result := result.set 9 (m.get 6)
  let result := result.set 10 (m.get 10)
  let result := result.set 11 0
  let result := result.set 12 (-((m.get 0 * m.get 12) + (m.get 1 * m.get 13) + (m.get 2 * m.get 14)))
  let result := result.set 13 (-((m.get 4 * m.get 12) + (m.get 5 * m.get 13) + (m.get 6 * m.get 14)))
  let result := result.set 14 (-((m.get 8 * m.get 12) + (m.get 9 * m.get 13) + (m.get 10 * m.get 14)))
  let result := result.set 15 1
  result

/-- The affine form of the library's layout: `data[3] = data[7] = data[11] = 0`
and `data[15] = 1`. -/
def Matrix44.IsAffine {K : Type} [Zero K] [One K] (m : Matrix44 K) : Prop :=
  m.get 3 = 0 ∧ m.get 7 = 0 ∧ m.get 11 = 0 ∧ m.get 15 = 1

end maths
end bkk

/-! ## Definitions: the object pool (`packed-freelist.h`) -/

namespace bkk

/-- Modelled from the spec: the handle type `handle_t` declared in the absent
`packed-freelist.h`. A handle is a slot index with the generation the slot had
when the handle was issued. The spec gives no width for the two unsigned
fields; they are unbounded naturals here. -/
structure handle_t where
  index : Nat
  generation : Nat
deriving DecidableEq, Repr

/-- Modelled from the spec: one entry of the sparse array of the absent
`packed_freelist_t`, mapping its slot to a position in the dense array and
holding the current generation of the slot. -/
structure sparse_entry_t where
  position : Nat
  generation : Nat
deriving DecidableEq, Repr

/-- Modelled from the spec: the object pool `packed_freelist_t<T>` of the absent
`packed-freelist.h`: the dense array of values, the reverse map from dense
position to owning slot, the sparse array and the free list of reusable slots. -/
structure packed_freelist_t (T : Type) where
  data : List T
  owner : List Nat
  sparse : List sparse_entry_t
  freeList : List Nat

/-- Modelled from the spec: the swap-with-last compaction of `remove`, which
moves the last element of a dense array into position `pos` and drops the last
cell. -/
def swapRemove {α : Type} (l : List α) (pos : Nat) : List α :=
  match l.getLast? with
  | none => l
  | some last => (l.set pos last).dropLast

namespace packed_freelist_t

variable {T : Type}

/-- Modelled from the spec: a pool is created empty. -/
def empty : packed_freelist_t T := ⟨[], [], [], []⟩

/-- Modelled from the spec: `add(value)` of the absent `packed_freelist_t`. It
takes a slot (a freed one if the free list has one, a new one otherwise), stores
the value at the end of the dense array, records that position in the sparse
entry of the slot, and returns the slot index with the current generation. -/
def add (p : packed_freelist_t T) (value : T) : packed_freelist_t T × handle_t :=
  match p.freeList with
  | [] =>
    ({ data := p.data ++ [value]
       owner := p.owner ++ [p.sparse.length]
       sparse := p.sparse ++ [⟨p.data.length, 0⟩]
       freeList := [] },
     ⟨p.sparse.length, 0⟩)
  | slot :: rest =>
    let generation := match p.sparse[slot]? with
      | some e => e.generation
      | none => 0
    ({ data := p.data ++ [value]
       owner := p.owner ++ [slot]
       sparse := p.sparse.set slot ⟨p.data.length, generation⟩
       freeList := rest },
     ⟨slot, generation⟩)

/-- Modelled from the spec: `get(handle)` of the absent `packed_freelist_t`. It
compares the generation of the handle with the one stored in the slot and
reports absence on a mismatch or an index out of range. -/
def get (p : packed_freelist_t T) (h : handle_t) : Option T :=
  match p.sparse[h.index]? with
  | none => none
  | some e => if e.generation = h.generation then p.data[e.position]? else none

/-- Modelled from the spec: `remove(handle)` of the absent `packed_freelist_t`.
`none` is the `NotFound` outcome. On success the dense entry is removed by
swap-with-last, the sparse entry of the slot that owned the last element is
patched, the generation of the freed slot is incremented, the slot joins the
free list, and the removed value is returned. -/
def remove (p : packed_freelist_t T) (h : handle_t) : Option (packed_freelist_t T × T) :=
  match p.sparse[h.index]? with
  | none => none
  | some e =>
    if e.generation = h.generation then
      match p.data[e.position]?, p.owner.getLast? with
      | some removed, some lastOwner =>
        let patched := match p.sparse[lastOwner]? with
          | some le => p.sparse.set lastOwner ⟨e.position, le.generation⟩
          | none => p.sparse
        some ({ data := swapRemove p.data e.position
                owner := swapRemove p.owner e.position
                sparse := patched.set h.index ⟨e.position, e.generation + 1⟩
                freeList := h.index :: p.freeList },
              removed)
      | _, _ => none
    else none

/-- Modelled from the spec: `getData()`, the dense array of live values. -/
def getData (p : packed_freelist_t T) : List T := p.data

/-- Modelled from the spec: the handle under which the element at a dense
position is registered (slot from the reverse map, generation from the slot). -/
def handleAt (p : packed_freelist_t T) (pos : Nat) : Option handle_t :=
  match p.owner[pos]? with
  | none => none
  | some slot =>
    match p.sparse[slot]? with
    | none => none
    | some e => some ⟨slot, e.generation⟩

/-- Modelled from the spec: `iterate()`, the traversal from `begin()` to `end()`
over the dense positions `0 .. size - 1`, yielding each handle with its value. -/
def iterate (p : packed_freelist_t T) : List (handle_t × T) :=
  (List.range p.data.length).filterMap fun pos =>
    match p.handleAt pos, p.data[pos]? with
    | some h, some v => some (h, v)
    | _, _ => none

end packed_freelist_t

/-- An operation a client performs on a pool: `add` of a value, or `remove` of
the handle that the `ticket`-th `add` of the run returned. -/
inductive pool_op (T : Type) where
  | add (value : T)
  | remove (ticket : Nat)

/-- A pool together with the log of a run: the handle and value of every `add`
so far, in order, and the tickets that were passed to `remove`. -/
structure pool_run (T : Type) where
  pool : packed_freelist_t T
  issued : List (handle_t × T)
  removed : List Nat

namespace pool_run

variable {T : Type}

/-- The start of a run: an empty pool and an empty log. -/
def init : pool_run T := ⟨packed_freelist_t.empty, [], []⟩

/-- One client operation. A `remove` of a ticket that no `add` has produced yet
is not an operation the client can perform and is skipped. -/
def step (r : pool_run T) : pool_op T → pool_run T
  | .add value =>
    let res := r.pool.add value
    ⟨res.1, r.issued ++ [(res.2, value)], r.removed⟩
  | .remove ticket =>
    match r.issued[ticket]? with
    | none => r
    | some (h, _) =>
      match r.pool.remove h with
      | some res => ⟨res.1, r.issued, ticket :: r.removed⟩
      | none => ⟨r.pool, r.issued, ticket :: r.removed⟩

/-- The run of a sequence of operations from the empty pool. -/
def run (ops : List (pool_op T)) : pool_run T := ops.foldl step init

/-- The values of the tickets that were issued and not removed, in issue order. -/
def liveValues (r : pool_run T) : List T :=
  (List.range r.issued.length).filterMap fun k =>
    if k ∈ r.removed then none else r.issued[k]?.map Prod.snd

/-- The handle and value of the tickets that were issued and not removed. -/
def liveEntries (r : pool_run T) : List (handle_t × T) :=
  (List.range r.issued.length).filterMap fun k =>
    if k ∈ r.removed then none else r.issued[k]?

end pool_run

/-- The invariant of a run: `tags` names, for every dense position, the ticket
whose value is stored there. -/
structure PoolInv {T : Type} (r : pool_run T) (tags : List Nat) : Prop where
  len_tags : tags.length = r.pool.data.length
  len_owner : r.pool.owner.length = r.pool.data.length
  tag : ∀ pos k : Nat, tags[pos]? = some k → k ∉ r.removed ∧ ∃ h v, r.issued[k]? = some (h, v) ∧
    r.pool.owner[pos]? = some h.index ∧ r.pool.data[pos]? = some v ∧
    r.pool.sparse[h.index]? = some ⟨pos, h.generation⟩
  live_mem : ∀ (k : Nat) (h : handle_t) (v : T), r.issued[k]? = some (h, v) → k ∉ r.removed → k ∈ tags
  nodup : tags.Nodup
  free_nodup : r.pool.freeList.Nodup
  free_lt : ∀ s ∈ r.pool.freeList, s < r.pool.sparse.length
  free_owner : ∀ s ∈ r.pool.freeList, ∀ pos : Nat, r.pool.owner[pos]? ≠ some s
  gen_le : ∀ (k : Nat) (h : handle_t) (v : T), r.issued[k]? = some (h, v) → ∃ e, r.pool.sparse[h.index]? = some e ∧
    h.generation ≤ e.generation ∧ (k ∈ r.removed → h.generation < e.generation)
  mono : ∀ (k k' : Nat) (h h' : handle_t) (v v' : T), k < k' → r.issued[k]? = some (h, v) → r.issued[k']? = some (h', v') →
    h.index = h'.index → h.generation < h'.generation
  removed_lt : ∀ k ∈ r.removed, k < r.issued.length

end bkk

/-! ## Definitions: the transform manager (`transform-manager.h`) -/

namespace bkk

open maths

/-- Modelled from the spec: a transform node of the absent `transform-manager.h`:
the local translation, scale and rotation, the optional parent handle, the
cached world matrix and the dirty flag. -/
structure transform_node_t (K : Type) where
  translation : Vector3 K
  scale : Vector3 K
  rotation : maths.Quaternion K
  parent : Option handle_t
  world : Matrix44 K
  dirty : Bool

/-- Modelled from the spec: a slot of the transform node store: the current
generation of the slot and the node it holds, if any. -/
structure transform_slot_t (K : Type) where
  generation : Nat
  node : Option (transform_node_t K)

/-- Modelled from the spec: the transform manager `transform_manager_t` of the
absent `transform-manager.h`, which owns the node store. Slots are addressed by
handle; a destroyed slot is not handed out again. -/
structure transform_manager_t (K : Type) where
  slots : List (transform_slot_t K)

/-- Modelled from the spec: the outcome of a transform manager operation. -/
inductive transform_result where
  | ok
  | notFound
  | cycleError
deriving DecidableEq, Repr

namespace transform_node_t

variable {K : Type}

/-- Modelled from the spec: `compose(translation, scale, rotation)`, the local
matrix of a node, built by `createTransform` of `maths.h`. -/
def compose [CommRing K] (nd : transform_node_t K) : Matrix44 K :=
  maths.createTransform nd.translation nd.scale nd.rotation

end transform_node_t

namespace transform_manager_t

variable {K : Type}

/-- Modelled from the spec: a manager with no node. -/
def empty : transform_manager_t K := ⟨[]⟩

/-- Modelled from the spec: handle validation. The node of a handle is found
only when its index is in range, its generation is the current one of the slot
and the slot holds a node. -/
def getNode (m : transform_manager_t K) (h : handle_t) : Option (transform_node_t K) :=
  match m.slots[h.index]? with
  | none => none
  | some s => if s.generation = h.generation then s.node else none

/-- Modelled from the spec: overwrite the node of a validated handle. -/
def setNode (m : transform_manager_t K) (h : handle_t) (nd : transform_node_t K) :
    transform_manager_t K :=
  ⟨m.slots.set h.index ⟨h.generation, some nd⟩⟩

/-- Modelled from the spec: `getWorldMatrix(handle)`, the cached world matrix. -/
def getWorldMatrix (m : transform_manager_t K) (h : handle_t) : Option (Matrix44 K) :=
  (m.getNode h).map fun nd => nd.world

/-- Modelled from the spec: the parent handle of a node, if it has one. -/
def getParent (m : transform_manager_t K) (h : handle_t) : Option handle_t :=
  (m.getNode h).bind fun nd => nd.parent

/-- Modelled from the spec: `createTransform(local)`, which creates a root node
with the given local transform, its world matrix equal to the local
composition, marked dirty. -/
def createTransform [CommRing K] (m : transform_manager_t K) (translation scale : Vector3 K)
    (rotation : maths.Quaternion K) : transform_manager_t K × handle_t :=
  (⟨m.slots ++ [⟨0, some
      { translation := translation, scale := scale, rotation := rotation, parent := none
        world := maths.createTransform translation scale rotation, dirty := true }⟩]⟩,
   ⟨m.slots.length, 0⟩)

/-- Modelled from the spec: the cycle test of `setParent`. Walking up the parent
links from `node`, is `target` met? The walk is cut after `fuel` nodes, and a
walk that is cut counts as a cycle. -/
def isSelfOrDescendant (m : transform_manager_t K) : Nat → handle_t → handle_t → Bool
  | 0, _, _ => true
  | fuel + 1, node, target =>
    if node = target then true
    else
      match m.getParent node with
      | none => false
      | some q => isSelfOrDescendant m fuel q target

/-- Modelled from the spec: `setParent(child, parent)`. It fails with `notFound`
on a stale handle and with `cycleError` when `parent` is `child` or one of its
descendants; otherwise it sets the parent link and marks `child` dirty. A failed
call returns the manager it was given. -/
def setParent (m : transform_manager_t K) (child parent : handle_t) :
    transform_result × transform_manager_t K :=
  match m.getNode child, m.getNode parent with
  | some c, some _ =>
    if m.isSelfOrDescendant m.slots.length parent child then (.cycleError, m)
    else (.ok, m.setNode child { c with parent := some parent, dirty := true })
  | _, _ => (.notFound, m)

/-- Modelled from the spec: `setLocalTranslation(handle, value)`. -/
def setLocalTranslation (m : transform_manager_t K) (h : handle_t) (value : Vector3 K) :
    transform_result × transform_manager_t K :=
  match m.getNode h with
  | some nd => (.ok, m.setNode h { nd with translation := value, dirty := true })
  | none => (.notFound, m)

/-- Modelled from the spec: `setLocalScale(handle, value)`. -/
def setLocalScale (m : transform_manager_t K) (h : handle_t) (value : Vector3 K) :
    transform_result × transform_manager_t K :=
  match m.getNode h with
  | some nd => (.ok, m.setNode h { nd with scale := value, dirty := true })
  | none => (.notFound, m)

/-- Modelled from the spec: `setLocalRotation(handle, value)`. -/
def setLocalRotation (m : transform_manager_t K) (h : handle_t) (value : maths.Quaternion K) :
    transform_result × transform_manager_t K :=
  match m.getNode h with
  | some nd => (.ok, m.setNode h { nd with rotation := value, dirty := true })
  | none => (.notFound, m)

/-- Modelled from the spec: the reparenting policy of `destroyTransform`: a child
of the destroyed node becomes a root and is marked dirty. -/
def detach (h : handle_t) (s : transform_slot_t K) : transform_slot_t K :=
  match s.node with
  | none => s
  | some nd =>
    if nd.parent = some h then { s with node := some { nd with parent := none, dirty := true } }
    else s

/-- Modelled from the spec: `destroyTransform(handle)`. The node is removed, the
generation of its slot is incremented, and its children are detached. -/
def destroyTransform (m : transform_manager_t K) (h : handle_t) :
    transform_result × transform_manager_t K :=
  match m.getNode h with
  | some _ => (.ok, ⟨(m.slots.set h.index ⟨h.generation + 1, none⟩).map (detach h)⟩)
  | none => (.notFound, m)

/-- Modelled from the spec: the number of parent links from a node up to its
root, found by walking at most `fuel` nodes. -/
def depth? (m : transform_manager_t K) : Nat → handle_t → Option Nat
  | 0, _ => none
  | fuel + 1, h =>
    match m.getNode h with
    | none => none
    | some nd =>
      match nd.parent with
      | none => some 0
      | some ph => (depth? m fuel ph).map (· + 1)

/-- Modelled from the spec: the handles of the nodes of the store, in slot order. -/
def liveHandles (m : transform_manager_t K) : List handle_t :=
  (List.range m.slots.length).filterMap fun i =>
    match m.slots[i]? with
    | none => none
    | some s => if s.node.isSome then some ⟨i, s.generation⟩ else none

/-- Modelled from the spec: the traversal order of `update()`, a parent-depth
sort: the roots first, then the nodes at depth 1, and so on, so that the parent of
a node comes before the node. -/
def order (m : transform_manager_t K) : List handle_t :=
  (List.range m.slots.length).flatMap fun d =>
    m.liveHandles.filter fun h => m.depth? m.slots.length h = some d

/-- Modelled from the spec: the processing of one node by `update()`. A dirty
node, or a node whose parent was recomputed in this pass (the parent is still
flagged dirty), gets `world = parent.world * local` (`world = local` for a root)
and stays flagged until the end of the pass. -/
def processNode [CommRing K] (m : transform_manager_t K) (h : handle_t) : transform_manager_t K :=
  match m.getNode h with
  | none => m
  | some nd =>
    match nd.parent with
    | none => if nd.dirty then m.setNode h { nd with world := nd.compose } else m
    | some ph =>
      match m.getNode ph with
      | none => m
      | some pn =>
        if nd.dirty || pn.dirty then
          m.setNode h { nd with world := pn.world * nd.compose, dirty := true }
        else m

/-- Modelled from the spec: the end of `update()`, which clears every dirty flag. -/
def clearDirty (m : transform_manager_t K) : transform_manager_t K :=
  ⟨m.slots.map fun s => { s with node := s.node.map fun nd => { nd with dirty := false } }⟩

/-- Modelled from the spec: `update()`: the nodes are processed parents first,
then the dirty flags are cleared. -/
def update [CommRing K] (m : transform_manager_t K) : transform_manager_t K :=
  ((m.order).foldl processNode m).clearDirty

end transform_manager_t

/-- An operation of the transform manager interface, on arbitrary handles. -/
inductive transform_op (K : Type) where
  | createTransform (translation scale : Vector3 K) (rotation : maths.Quaternion K)
  | setParent (child parent : handle_t)
  | setLocalTranslation (h : handle_t) (value : Vector3 K)
  | setLocalScale (h : handle_t) (value : Vector3 K)
  | setLocalRotation (h : handle_t) (value : maths.Quaternion K)
  | update
  | destroyTransform (h : handle_t)

namespace transform_manager_t

variable {K : Type}

/-- The manager after one operation of the interface. -/
def step [CommRing K] (m : transform_manager_t K) : transform_op K → transform_manager_t K
  | .createTransform t s q => (m.createTransform t s q).1
  | .setParent c p => (m.setParent c p).2
  | .setLocalTranslation h v => (m.setLocalTranslation h v).2
  | .setLocalScale h v => (m.setLocalScale h v).2
  | .setLocalRotation h q => (m.setLocalRotation h q).2
  | .update => m.update
  | .destroyTransform h => (m.destroyTransform h).2

/-- The manager reached from the empty one by a sequence of operations. -/
def run [CommRing K] (ops : List (transform_op K)) : transform_manager_t K :=
  ops.foldl step empty

/-- The relation "`p` is `c` or a descendant of `c`": following parent links
from `p` leads to the node `c`. -/
inductive SelfOrDescendant (m : transform_manager_t K) : handle_t → handle_t → Prop where
  | self (c : handle_t) : (m.getNode c).isSome → SelfOrDescendant m c c
  | step (p q c : handle_t) : m.getParent p = some q → SelfOrDescendant m q c →
      SelfOrDescendant m p c

/-- A node that reaches a root after exactly `d` parent links. -/
inductive Rooted (m : transform_manager_t K) : Nat → handle_t → Prop where
  | root (h : handle_t) (nd : transform_node_t K) : m.getNode h = some nd → nd.parent = none →
      Rooted m 0 h
  | child (d : Nat) (h ph : handle_t) (nd : transform_node_t K) : m.getNode h = some nd →
      nd.parent = some ph → Rooted m d ph → Rooted m (d + 1) h

/-- What `update()` is to compute for a node: whether it is recomputed (it is
dirty or an ancestor is) and its world matrix after the pass. -/
inductive Final [CommRing K] (m : transform_manager_t K) : handle_t → Bool → Matrix44 K → Prop where
  | root (h : handle_t) (nd : transform_node_t K) : m.getNode h = some nd → nd.parent = none →
      Final m h nd.dirty (if nd.dirty then nd.compose else nd.world)
  | child (h ph : handle_t) (nd : transform_node_t K) (dp : Bool) (wp : Matrix44 K) :
      m.getNode h = some nd → nd.parent = some ph → Final m ph dp wp →
      Final m h (nd.dirty || dp) (if nd.dirty || dp then wp * nd.compose else nd.world)

/-- The state of a pass of `update()` over `m`: the nodes in `done` hold their
final value, the others are as at the start. -/
structure PassState {K : Type} [CommRing K] (m m' : transform_manager_t K) (done : List handle_t) : Prop where
  undone : ∀ h : handle_t, h ∉ done → m'.getNode h = m.getNode h
  finished : ∀ h ∈ done, ∃ (nd : transform_node_t K) (b : Bool) (w : Matrix44 K),
    m.getNode h = some nd ∧ Final m h b w ∧ m'.getNode h = some { nd with dirty := b, world := w }

/-- A list that can be processed in order from the state `done`: each node is
new and its parent has been processed. -/
def TopoFrom {K : Type} (m : transform_manager_t K) : List handle_t → List handle_t → Prop
  | _, [] => True
  | done, h :: t => h ∉ done ∧ (m.getNode h).isSome ∧
      (∀ (nd : transform_node_t K) (ph : handle_t), m.getNode h = some nd →
        nd.parent = some ph → ph ∈ done) ∧ TopoFrom m (h :: done) t

/-- The well-formedness of a manager: parent handles resolve, parent links have
no cycle, and a clean node under a clean parent holds the composed matrix. -/
structure WF {K : Type} [CommRing K] (m : transform_manager_t K) : Prop where
  parent_live : ∀ (h : handle_t) (nd : transform_node_t K) (ph : handle_t),
    m.getNode h = some nd → nd.parent = some ph → (m.getNode ph).isSome
  acyclic : ∃ rank : handle_t → Nat, ∀ (h : handle_t) (nd : transform_node_t K) (ph : handle_t),
    m.getNode h = some nd → nd.parent = some ph → rank ph < rank h
  coherent : ∀ (h : handle_t) (nd : transform_node_t K), m.getNode h = some nd →
    nd.dirty = false →
    (nd.parent = none → nd.world = nd.compose) ∧
    (∀ (ph : handle_t) (pn : transform_node_t K), nd.parent = some ph →
      m.getNode ph = some pn → pn.dirty = false → nd.world = pn.world * nd.compose)

end transform_manager_t

end bkk

/-! ## Theorems: `maths.h` -/

namespace bkk
namespace maths

open Matrix44

section basic
variable {K : Type}

@[simp] theorem Matrix44.ofEntries_data_0 (e0 e1 e2 e3 e4 e5 e6 e7 e8 e9 e10 e11 e12 e13 e14 e15 : K) :
    (ofEntries e0 e1 e2 e3 e4 e5 e6 e7 e8 e9 e10 e11 e12 e13 e14 e15).data 0 = e0 := rfl

@[simp] theorem Matrix44.ofEntries_data_1 (e0 e1 e2 e3 e4 e5 e6 e7 e8 e9 e10 e11 e12 e13 e14 e15 : K) :
    (ofEntries e0 e1 e2 e3 e4 e5 e6 e7 e8 e9 e10 e11 e12 e13 e14 e15).data 1 = e1 := rfl

@[simp] theorem Matrix44.ofEntries_data_2 (e0 e1 e2 e3 e4 e5 e6 e7 e8 e9 e10 e11 e12 e13 e14 e15 : K) :
    (ofEntries e0 e1 e2 e3 e4 e5 e6 e7 e8 e9 e10 e11 e12 e13 e14 e15).data 2 = e2 := rfl

@[simp] theorem Matrix44.ofEntries_data_3 (e0 e1 e2 e3 e4 e5 e6 e7 e8 e9 e10 e11 e12 e13 e14 e15 : K) :
    (ofEntries e0 e1 e2 e3 e4 e5 e6 e7 e8 e9 e10 e11 e12 e13 e14 e15).data 3 = e3 := rfl

@[simp] theorem Matrix44.ofEntries_data_4 (e0 e1 e2 e3 e4 e5 e6 e7 e8 e9 e10 e11 e12 e13 e14 e15 : K) :
    (ofEntries e0 e1 e2 e3 e4 e5 e6 e7 e8 e9 e10 e11 e12 e13 e14 e15).data 4 = e4 := rfl

@[simp] theorem Matrix44.ofEntries_data_5 (e0 e1 e2 e3 e4 e5 e6 e7 e8 e9 e10 e11 e12 e13 e14 e15 : K) :
    (ofEntries e0 e1 e2 e3 e4 e5 e6 e7 e8 e9 e10 e11 e12 e13 e14 e15).data 5 = e5 := rfl

@[simp] theorem Matrix44.ofEntries_data_6 (e0 e1 e2 e3 e4 e5 e6 e7 e8 e9 e10 e11 e12 e13 e14 e15 : K) :
    (ofEntries e0 e1 e2 e3 e4 e5 e6 e7 e8 e9 e10 e11 e12 e13 e14 e15).data 6 = e6 := rfl

@[simp] theorem Matrix44.ofEntries_data_7 (e0 e1 e2 e3 e4 e5 e6 e7 e8 e9 e10 e11 e12 e13 e14 e15 : K) :
    (ofEntries e0 e1 e2 e3 e4 e5 e6 e7 e8 e9 e10 e11 e12 e13 e14 e15).data 7 = e7 := rfl

@[simp] theorem Matrix44.ofEntries_data_8 (e0 e1 e2 e3 e4 e5 e6 e7 e8 e9 e10 e11 e12 e13 e14 e15 : K) :
    (ofEntries e0 e1 e2 e3 e4 e5 e6 e7 e8 e9 e10 e11 e12 e13 e14 e15).data 8 = e8 := rfl

@[simp] theorem Matrix44.ofEntries_data_9 (e0 e1 e2 e3 e4 e5 e6 e7 e8 e9 e10 e11 e12 e13 e14 e15 : K) :
    (ofEntries e0 e1 e2 e3 e4 e5 e6 e7 e8 e9 e10 e11 e12 e13 e14 e15).data 9 = e9 := rfl

@[simp] theorem Matrix44.ofEntries_data_10 (e0 e1 e2 e3 e4 e5 e6 e7 e8 e9 e10 e11 e12 e13 e14 e15 : K) :
    (ofEntries e0 e1 e2 e3 e4 e5 e6 e7 e8 e9 e10 e11 e12 e13 e14 e15).data 10 = e10 := rfl

@[simp] theorem Matrix44.ofEntries_data_11 (e0 e1 e2 e3 e4 e5 e6 e7 e8 e9 e10 e11 e12 e13 e14 e15 : K) :
    (ofEntries e0 e1 e2 e3 e4 e5 e6 e7 e8 e9 e10 e11 e12 e13 e14 e15).data 11 = e11 := rfl

@[simp] theorem Matrix44.ofEntries_data_12 (e0 e1 e2 e3 e4 e5 e6 e7 e8 e9 e10 e11 e12 e13 e14 e15 : K) :
    (ofEntries e0 e1 e2 e3 e4 e5 e6 e7 e8 e9 e10 e11 e12 e13 e14 e15).data 12 = e12 := rfl

@[simp] theorem Matrix44.ofEntries_data_13 (e0 e1 e2 e3 e4 e5 e6 e7 e8 e9 e10 e11 e12 e13 e14 e15 : K) :
    (ofEntries e0 e1 e2 e3 e4 e5 e6 e7 e8 e9 e10 e11 e12 e13 e14 e15).data 13 = e13 := rfl

@[simp] theorem Matrix44.ofEntries_data_14 (e0 e1 e2 e3 e4 e5 e6 e7 e8 e9 e10 e11 e12 e13 e14 e15 : K) :
    (ofEntries e0 e1 e2 e3 e4 e5 e6 e7 e8 e9 e10 e11 e12 e13 e14 e15).data 14 = e14 := rfl

@[simp] theorem Matrix44.ofEntries_data_15 (e0 e1 e2 e3 e4 e5 e6 e7 e8 e9 e10 e11 e12 e13 e14 e15 : K) :
    (ofEntries e0 e1 e2 e3 e4 e5 e6 e7 e8 e9 e10 e11 e12 e13 e14 e15).data 15 = e15 := rfl

theorem Matrix44.eq_ofEntries (m : Matrix44 K) :
    m = ofEntries (m.data 0) (m.data 1) (m.data 2) (m.data 3) (m.data 4) (m.data 5)
      (m.data 6) (m.data 7) (m.data 8) (m.data 9) (m.data 10) (m.data 11) (m.data 12)
      (m.data 13) (m.data 14) (m.data 15) := by
  ext k; fin_cases k <;> rfl

theorem Matrix44.mul_eq [CommRing K] (a b : Matrix44 K) :
    a * b = ofEntries
      (a.data 0 * b.data 0 + a.data 1 * b.data 4 + a.data 2 * b.data 8 + a.data 3 * b.data 12)
      (a.data 0 * b.data 1 + a.data 1 * b.data 5 + a.data 2 * b.data 9 + a.data 3 * b.data 13)
      (a.data 0 * b.data 2 + a.data 1 * b.data 6 + a.data 2 * b.data 10 + a.data 3 * b.data 14)
      (a.data 0 * b.data 3 + a.data 1 * b.data 7 + a.data 2 * b.data 11 + a.data 3 * b.data 15)
      (a.data 4 * b.data 0 + a.data 5 * b.data 4 + a.data 6 * b.data 8 + a.data 7 * b.data 12)
      (a.data 4 * b.data 1 + a.data 5 * b.data 5 + a.data 6 * b.data 9 + a.data 7 * b.data 13)
      (a.data 4 * b.data 2 + a.data 5 * b.data 6 + a.data 6 * b.data 10 + a.data 7 * b.data 14)
      (a.data 4 * b.data 3 + a.data 5 * b.data 7 + a.data 6 * b.data 11 + a.data 7 * b.data 15)
      (a.data 8 * b.data 0 + a.data 9 * b.data 4 + a.data 10 * b.data 8 + a.data 11 * b.data 12)
      (a.data 8 * b.data 1 + a.data 9 * b.data 5 + a.data 10 * b.data 9 + a.data 11 * b.data 13)
      (a.data 8 * b.data 2 + a.data 9 * b.data 6 + a.data 10 * b.data 10 + a.data 11 * b.data 14)
      (a.data 8 * b.data 3 + a.data 9 * b.data 7 + a.data 10 * b.data 11 + a.data 11 * b.data 15)
      (a.data 12 * b.data 0 + a.data 13 * b.data 4 + a.data 14 * b.data 8 + a.data 15 * b.data 12)
      (a.data 12 * b.data 1 + a.data 13 * b.data 5 + a.data 14 * b.data 9 + a.data 15 * b.data 13)
      (a.data 12 * b.data 2 + a.data 13 * b.data 6 + a.data 14 * b.data 10 + a.data 15 * b.data 14)
      (a.data 12 * b.data 3 + a.data 13 * b.data 7 + a.data 14 * b.data 11 + a.data 15 * b.data 15) := by
  ext k; fin_cases k <;> rfl

theorem createTransform_eq [CommRing K] (t s : Vector3 K) (q : Quaternion K) :
    createTransform t s q = ofEntries
      (s.x * (1 - 2 * (q.y * q.y + q.z * q.z)))
      (s.x * (2 * (q.x * q.y + q.z * q.w)))
      (s.x * (2 * (q.x * q.z - q.y * q.w)))
      0
      (s.y * (2 * (q.x * q.y - q.z * q.w)))
      (s.y * (1 - 2 * (q.x * q.x + q.z * q.z)))
      (s.y * (2 * (q.y * q.z + q.x * q.w)))
      0
      (s.z * (2 * (q.x * q.z + q.y * q.w)))
      (s.z * (2 * (q.y * q.z - q.x * q.w)))
      (s.z * (1 - 2 * (q.x * q.x + q.y * q.y)))
      0
      t.x t.y t.z 1 := by
  ext k; fin_cases k <;> rfl

theorem Matrix44.identity_eq [Zero K] [One K] :
    (identity : Matrix44 K) = ofEntries 1 0 0 0 0 1 0 0 0 0 1 0 0 0 0 1 := by
  ext k; fin_cases k <;> rfl

theorem Matrix44.ofEntries_congr {e0 e1 e2 e3 e4 e5 e6 e7 e8 e9 e10 e11 e12 e13 e14 e15
    f0 f1 f2 f3 f4 f5 f6 f7 f8 f9 f10 f11 f12 f13 f14 f15 : K}
    (h0 : e0 = f0) (h1 : e1 = f1) (h2 : e2 = f2) (h3 : e3 = f3) (h4 : e4 = f4) (h5 : e5 = f5)
    (h6 : e6 = f6) (h7 : e7 = f7) (h8 : e8 = f8) (h9 : e9 = f9) (h10 : e10 = f10)
    (h11 : e11 = f11) (h12 : e12 = f12) (h13 : e13 = f13) (h14 : e14 = f14) (h15 : e15 = f15) :
    ofEntries e0 e1 e2 e3 e4 e5 e6 e7 e8 e9 e10 e11 e12 e13 e14 e15
      = ofEntries f0 f1 f2 f3 f4 f5 f6 f7 f8 f9 f10 f11 f12 f13 f14 f15 := by
  subst h0 h1 h2 h3 h4 h5 h6 h7 h8 h9 h10 h11 h12 h13 h14 h15; rfl

end basic

section algebra
variable {K : Type}

theorem Vector3.add_x [Add K] (a b : Vector3 K) : (a + b).x = a.x + b.x := rfl

theorem Vector3.add_y [Add K] (a b : Vector3 K) : (a + b).y = a.y + b.y := rfl

theorem Vector3.add_z [Add K] (a b : Vector3 K) : (a + b).z = a.z + b.z := rfl

/-- C9: entry `(i, j)` of `m0 * m1`, read as `data[4 * i + j]`, is the sum over
`k` of `m0(i, k) * m1(k, j)`: `operator*` is the matrix product of the row-major
arrays. -/
theorem mul_entry [CommRing K] (m0 m1 : Matrix44 K) (i j : Fin 4) :
    (m0 * m1).entry i j = ∑ k : Fin 4, m0.entry i k * m1.entry k j
      ∧ (m0 * m1).entry i j = (m0 * m1).data ⟨4 * i.val + j.val, by omega⟩
      ∧ (m0 * m1).toMatrix = m0.toMatrix * m1.toMatrix := by
  refine ⟨?_, ?_, ?_⟩
  · rw [Fin.sum_univ_four]
    fin_cases i <;> fin_cases j <;> rfl
  · fin_cases i <;> fin_cases j <;> rfl
  · ext a b
    rw [Matrix.mul_apply, Fin.sum_univ_four]
    fin_cases a <;> fin_cases b <;> rfl

/-- C7: two pure translations compose to the translation by the sum, and a child
at local `(1,0,0)` under a parent at `(5,0,0)` has a world matrix whose
translation `data[12..14]` is `(6,0,0)`. -/
theorem createTransform_translation_mul [CommRing K] (t1 t2 : Vector3 K) :
    createTransform t1 VEC3_ONE QUAT_UNIT * createTransform t2 VEC3_ONE QUAT_UNIT
        = createTransform (t1 + t2) VEC3_ONE QUAT_UNIT
      ∧ (let world : Matrix44 K :=
            createTransform ⟨5, 0, 0⟩ VEC3_ONE QUAT_UNIT * createTransform ⟨1, 0, 0⟩ VEC3_ONE QUAT_UNIT
         world.get 12 = 6 ∧ world.get 13 = 0 ∧ world.get 14 = 0) := by
  constructor
  · simp only [createTransform_eq, Matrix44.mul_eq]
    apply Matrix44.ofEntries_congr <;>
      simp [VEC3_ONE, QUAT_UNIT, Vector3.add_x, Vector3.add_y, Vector3.add_z]
  · simp only [createTransform_eq, Matrix44.mul_eq, Matrix44.get]
    simp [VEC3_ONE, QUAT_UNIT]
    norm_num

/-- C8: `createTransform(t, s, q)` is the product scale, then rotation, then
translation of the three elementary transforms. -/
theorem createTransform_decompose [CommRing K] (t s : Vector3 K) (q : Quaternion K) :
    createTransform t s q
      = createTransform VEC3_ZERO s QUAT_UNIT * createTransform VEC3_ZERO VEC3_ONE q
          * createTransform t VEC3_ONE QUAT_UNIT := by
  simp only [createTransform_eq, Matrix44.mul_eq]
  apply Matrix44.ofEntries_congr <;>
    simp [VEC3_ONE, VEC3_ZERO, QUAT_UNIT]

end algebra

section inverse
variable {K : Type}

theorem Matrix44.toMatrix_eq (m : Matrix44 K) :
    m.toMatrix = !![m.data 0, m.data 1, m.data 2, m.data 3;
                    m.data 4, m.data 5, m.data 6, m.data 7;
                    m.data 8, m.data 9, m.data 10, m.data 11;
                    m.data 12, m.data 13, m.data 14, m.data 15] := by
  ext i j; fin_cases i <;> fin_cases j <;> rfl

theorem det_fin_four_of [CommRing K] (a b c d e f g h i j k l m n o p : K) :
    Matrix.det !![a, b, c, d; e, f, g, h; i, j, k, l; m, n, o, p] =
      a * (f * k * p - f * l * o - j * g * p + j * h * o + n * g * l - n * h * k)
      + b * (-e * k * p + e * l * o + i * g * p - i * h * o - m * g * l + m * h * k)
      + c * (e * j * p - e * l * n - i * f * p + i * h * n + m * f * l - m * h * j)
      + d * (-e * j * o + e * k * n + i * f * o - i * g * n - m * f * k + m * g * j) := by
  have s00 : Fin.succAbove (0 : Fin 4) 0 = 1 := rfl
  have s01 : Fin.succAbove (0 : Fin 4) 1 = 2 := rfl
  have s02 : Fin.succAbove (0 : Fin 4) 2 = 3 := rfl
  have s10 : Fin.succAbove (1 : Fin 4) 0 = 0 := rfl
  have s11 : Fin.succAbove (1 : Fin 4) 1 = 2 := rfl
  have s12 : Fin.succAbove (1 : Fin 4) 2 = 3 := rfl
  have s20 : Fin.succAbove (2 : Fin 4) 0 = 0 := rfl
  have s21 : Fin.succAbove (2 : Fin 4) 1 = 1 := rfl
  have s22 : Fin.succAbove (2 : Fin 4) 2 = 3 := rfl
  have s30 : Fin.succAbove (3 : Fin 4) 0 = 0 := rfl
  have s31 : Fin.succAbove (3 : Fin 4) 1 = 1 := rfl
  have s32 : Fin.succAbove (3 : Fin 4) 2 = 2 := rfl
  have t0 : Fin.succ (0 : Fin 3) = 1 := rfl
  have t1 : Fin.succ (1 : Fin 3) = 2 := rfl
  have t2 : Fin.succ (2 : Fin 3) = 3 := rfl
  have v3 : ((3 : Fin 4) : ℕ) = 3 := rfl
  rw [Matrix.det_succ_row_zero, Fin.sum_univ_four]
  simp only [Matrix.det_fin_three, Matrix.submatrix_apply, s00, s01, s02, s10, s11, s12, s20,
    s21, s22, s30, s31, s32, t0, t1, t2]
  simp [v3, pow_succ]
  ring

theorem invertMatrixCofactors_eq [CommRing K] (m result : Matrix44 K) :
    invertMatrixCofactors m result = ofEntries
      (m.data 5 * m.data 10 * m.data 15 - m.data 5 * m.data 11 * m.data 14 - m.data 9 * m.data 6 * m.data 15 + m.data 9 * m.data 7 * m.data 14 + m.data 13 * m.data 6 * m.data 11 - m.data 13 * m.data 7 * m.data 10)
      (-m.data 1 * m.data 10 * m.data 15 + m.data 1 * m.data 11 * m.data 14 + m.data 9 * m.data 2 * m.data 15 - m.data 9 * m.data 3 * m.data 14 - m.data 13 * m.data 2 * m.data 11 + m.data 13 * m.data 3 * m.data 10)
      (m.data 1 * m.data 6 * m.data 15 - m.data 1 * m.data 7 * m.data 14 - m.data 5 * m.data 2 * m.data 15 + m.data 5 * m.data 3 * m.data 14 + m.data 13 * m.data 2 * m.data 7 - m.data 13 * m.data 3 * m.data 6)
      (-m.data 1 * m.data 6 * m.data 11 + m.data 1 * m.data 7 * m.data 10 + m.data 5 * m.data 2 * m.data 11 - m.data 5 * m.data 3 * m.data 10 - m.data 9 * m.data 2 * m.data 7 + m.data 9 * m.data 3 * m.data 6)
      (-m.data 4 * m.data 10 * m.data 15 + m.data 4 * m.data 11 * m.data 14 + m.data 8 * m.data 6 * m.data 15 - m.data 8 * m.data 7 * m.data 14 - m.data 12 * m.data 6 * m.data 11 + m.data 12 * m.data 7 * m.data 10)
      (m.data 0 * m.data 10 * m.data 15 - m.data 0 * m.data 11 * m.data 14 - m.data 8 * m.data 2 * m.data 15 + m.data 8 * m.data 3 * m.data 14 + m.data 12 * m.data 2 * m.data 11 - m.data 12 * m.data 3 * m.data 10)
      (-m.data 0 * m.data 6 * m.data 15 + m.data 0 * m.data 7 * m.data 14 + m.data 4 * m.data 2 * m.data 15 - m.data 4 * m.data 3 * m.data 14 - m.data 12 * m.data 2 * m.data 7 + m.data 12 * m.data 3 * m.data 6)
      (m.data 0 * m.data 6 * m.data 11 - m.data 0 * m.data 7 * m.data 10 - m.data 4 * m.data 2 * m.data 11 + m.data 4 * m.data 3 * m.data 10 + m.data 8 * m.data 2 * m.data 7 - m.data 8 * m.data 3 * m.data 6)
      (m.data 4 * m.data 9 * m.data 15 - m.data 4 * m.data 11 * m.data 13 - m.data 8 * m.data 5 * m.data 15 + m.data 8 * m.data 7 * m.data 13 + m.data 12 * m.data 5 * m.data 11 - m.data 12 * m.data 7 * m.data 9)
      (-m.data 0 * m.data 9 * m.data 15 + m.data 0 * m.data 11 * m.data 13 + m.data 8 * m.data 1 * m.data 15 - m.data 8 * m.data 3 * m.data 13 - m.data 12 * m.data 1 * m.data 11 + m.data 12 * m.data 3 * m.data 9)
      (m.data 0 * m.data 5 * m.data 15 - m.data 0 * m.data 7 * m.data 13 - m.data 4 * m.data 1 * m.data 15 + m.data 4 * m.data 3 * m.data 13 + m.data 12 * m.data 1 * m.data 7 - m.data 12 * m.data 3 * m.data 5)
      (-m.data 0 * m.data 5 * m.data 11 + m.data 0 * m.data 7 * m.data 9 + m.data 4 * m.data 1 * m.data 11 - m.data 4 * m.data 3 * m.data 9 - m.data 8 * m.data 1 * m.data 7 + m.data 8 * m.data 3 * m.data 5)
      (-m.data 4 * m.data 9 * m.data 14 + m.data 4 * m.data 10 * m.data 13 + m.data 8 * m.data 5 * m.data 14 - m.data 8 * m.data 6 * m.data 13 - m.data 12 * m.data 5 * m.data 10 + m.data 12 * m.data 6 * m.data 9)
      (m.data 0 * m.data 9 * m.data 14 - m.data 0 * m.data 10 * m.data 13 - m.data 8 * m.data 1 * m.data 14 + m.data 8 * m.data 2 * m.data 13 + m.data 12 * m.data 1 * m.data 10 - m.data 12 * m.data 2 * m.data 9)
      (-m.data 0 * m.data 5 * m.data 14 + m.data 0 * m.data 6 * m.data 13 + m.data 4 * m.data 1 * m.data 14 - m.data 4 * m.data 2 * m.data 13 - m.data 12 * m.data 1 * m.data 6 + m.data 12 * m.data 2 * m.data 5)
      (m.data 0 * m.data 5 * m.data 10 - m.data 0 * m.data 6 * m.data 9 - m.data 4 * m.data 1 * m.data 10 + m.data 4 * m.data 2 * m.data 9 + m.data 8 * m.data 1 * m.data 6 - m.data 8 * m.data 2 * m.data 5) := by
  ext k; fin_cases k <;> rfl

theorem invertMatrixDeterminant_eq_det [CommRing K] (m result : Matrix44 K) :
    invertMatrixDeterminant m (invertMatrixCofactors m result) = m.toMatrix.det := by
  rw [Matrix44.toMatrix_eq, det_fin_four_of]
  simp only [invertMatrixDeterminant, invertMatrixCofactors_eq, Matrix44.get,
    Matrix44.ofEntries_data_0, Matrix44.ofEntries_data_4, Matrix44.ofEntries_data_8,
    Matrix44.ofEntries_data_12]

theorem invertMatrix_eq_of_ne [Field K] [DecidableEq K] (m result : Matrix44 K)
    (h : invertMatrixDeterminant m (invertMatrixCofactors m result) ≠ 0) :
    invertMatrix m result = (true,
      let c := invertMatrixCofactors m result
      let d := 1 / invertMatrixDeterminant m (invertMatrixCofactors m result)
      ofEntries (c.data 0 * d) (c.data 1 * d) (c.data 2 * d) (c.data 3 * d) (c.data 4 * d)
        (c.data 5 * d) (c.data 6 * d) (c.data 7 * d) (c.data 8 * d) (c.data 9 * d)
        (c.data 10 * d) (c.data 11 * d) (c.data 12 * d) (c.data 13 * d) (c.data 14 * d)
        (c.data 15 * d)) := by
  unfold invertMatrix
  simp only [h, ne_eq, not_false_eq_true, if_true]
  refine Prod.ext rfl ?_
  ext k; fin_cases k <;> rfl

set_option maxHeartbeats 4000000 in
theorem invertMatrix_scaled_cofactors_cancel [Field K] (m result : Matrix44 K) (d : K)
    (hd : d ≠ 0) (hdef : invertMatrixDeterminant m (invertMatrixCofactors m result) = d) :
    let c := invertMatrixCofactors m result
    let r := ofEntries (c.data 0 * (1 / d)) (c.data 1 * (1 / d)) (c.data 2 * (1 / d))
      (c.data 3 * (1 / d)) (c.data 4 * (1 / d)) (c.data 5 * (1 / d)) (c.data 6 * (1 / d))
      (c.data 7 * (1 / d)) (c.data 8 * (1 / d)) (c.data 9 * (1 / d)) (c.data 10 * (1 / d))
      (c.data 11 * (1 / d)) (c.data 12 * (1 / d)) (c.data 13 * (1 / d)) (c.data 14 * (1 / d))
      (c.data 15 * (1 / d))
    m * r = identity ∧ r * m = identity := by
  rw [invertMatrixDeterminant_eq_det, Matrix44.toMatrix_eq, det_fin_four_of] at hdef
  intro c r
  constructor
  · simp only [r, c, Matrix44.mul_eq, Matrix44.identity_eq, invertMatrixCofactors_eq]
    simp only [Matrix44.ofEntries_data_0, Matrix44.ofEntries_data_1, Matrix44.ofEntries_data_2,
      Matrix44.ofEntries_data_3, Matrix44.ofEntries_data_4, Matrix44.ofEntries_data_5,
      Matrix44.ofEntries_data_6, Matrix44.ofEntries_data_7, Matrix44.ofEntries_data_8,
      Matrix44.ofEntries_data_9, Matrix44.ofEntries_data_10, Matrix44.ofEntries_data_11,
      Matrix44.ofEntries_data_12, Matrix44.ofEntries_data_13, Matrix44.ofEntries_data_14,
      Matrix44.ofEntries_data_15]
    apply Matrix44.ofEntries_congr <;> field_simp <;> (try rw [← hdef]) <;> ring
  · simp only [r, c, Matrix44.mul_eq, Matrix44.identity_eq, invertMatrixCofactors_eq]
    simp only [Matrix44.ofEntries_data_0, Matrix44.ofEntries_data_1, Matrix44.ofEntries_data_2,
      Matrix44.ofEntries_data_3, Matrix44.ofEntries_data_4, Matrix44.ofEntries_data_5,
      Matrix44.ofEntries_data_6, Matrix44.ofEntries_data_7, Matrix44.ofEntries_data_8,
      Matrix44.ofEntries_data_9, Matrix44.ofEntries_data_10, Matrix44.ofEntries_data_11,
      Matrix44.ofEntries_data_12, Matrix44.ofEntries_data_13, Matrix44.ofEntries_data_14,
      Matrix44.ofEntries_data_15]
    apply Matrix44.ofEntries_congr <;> field_simp <;> (try rw [← hdef]) <;> ring

/-- C10: when the determinant of `m` is nonzero, `invertMatrix(m, result)` returns
true and leaves in `result` a two-sided inverse of `m` for `operator*`. -/
theorem invertMatrix_inverse [Field K] [DecidableEq K] (m result : Matrix44 K)
    (hdet : m.toMatrix.det ≠ 0) :
    (invertMatrix m result).1 = true
      ∧ m * (invertMatrix m result).2 = identity
      ∧ (invertMatrix m result).2 * m = identity := by
  have hd : invertMatrixDeterminant m (invertMatrixCofactors m result) ≠ 0 := by
    rw [invertMatrixDeterminant_eq_det]; exact hdet
  rw [invertMatrix_eq_of_ne m result hd]
  exact ⟨rfl, invertMatrix_scaled_cofactors_cancel m result _ hd rfl⟩

/-- Witness for C10 on a scaling-and-translation matrix over the rationals. -/
theorem invertMatrix_inverse_witness :
    (ofEntries 2 0 0 0 0 1 0 0 0 0 1 0 1 2 3 1 : Matrix44 ℚ).toMatrix.det ≠ 0
      ∧ ((invertMatrix (ofEntries 2 0 0 0 0 1 0 0 0 0 1 0 1 2 3 1 : Matrix44 ℚ) zero).1 = true
        ∧ (ofEntries 2 0 0 0 0 1 0 0 0 0 1 0 1 2 3 1 : Matrix44 ℚ)
            * (invertMatrix (ofEntries 2 0 0 0 0 1 0 0 0 0 1 0 1 2 3 1 : Matrix44 ℚ) zero).2
            = identity
        ∧ (invertMatrix (ofEntries 2 0 0 0 0 1 0 0 0 0 1 0 1 2 3 1 : Matrix44 ℚ) zero).2
            * (ofEntries 2 0 0 0 0 1 0 0 0 0 1 0 1 2 3 1 : Matrix44 ℚ) = identity) :=
  have hdet : (ofEntries 2 0 0 0 0 1 0 0 0 0 1 0 1 2 3 1 : Matrix44 ℚ).toMatrix.det ≠ 0 := by
    rw [Matrix44.toMatrix_eq, det_fin_four_of]
    simp only [Matrix44.ofEntries_data_0, Matrix44.ofEntries_data_1, Matrix44.ofEntries_data_2,
      Matrix44.ofEntries_data_3, Matrix44.ofEntries_data_4, Matrix44.ofEntries_data_5,
      Matrix44.ofEntries_data_6, Matrix44.ofEntries_data_7, Matrix44.ofEntries_data_8,
      Matrix44.ofEntries_data_9, Matrix44.ofEntries_data_10, Matrix44.ofEntries_data_11,
      Matrix44.ofEntries_data_12, Matrix44.ofEntries_data_13, Matrix44.ofEntries_data_14,
      Matrix44.ofEntries_data_15]
    norm_num
  ⟨hdet, invertMatrix_inverse _ _ hdet⟩

end inverse

end maths
end bkk

/-! ## Theorems: the object pool -/

namespace bkk

section pool
variable {T : Type}

theorem swapRemove_length {α : Type} (l : List α) (pos : Nat) :
    (swapRemove l pos).length = l.length - 1 := by
  unfold swapRemove
  cases h : l.getLast? with
  | none =>
    have : l = [] := by simpa using h
    simp [this]
  | some last => simp

theorem getElem?_swapRemove {α : Type} (l : List α) (pos j : Nat) (hpos : pos < l.length) :
    (swapRemove l pos)[j]? =
      if j < l.length - 1 then (if j = pos then l[l.length - 1]? else l[j]?) else none := by
  unfold swapRemove
  cases h : l.getLast? with
  | none =>
    have : l = [] := by simpa using h
    subst this
    simp at hpos
  | some last =>
    rw [List.getLast?_eq_getElem?] at h
    simp only [List.getElem?_dropLast, List.length_set, List.getElem?_set]
    by_cases hj : j < l.length - 1
    · simp only [hj, if_true]
      by_cases hjp : j = pos
      · subst hjp
        simp [hpos, h]
      · have : ¬ pos = j := fun h => hjp h.symm
        simp [hjp, this]
    · simp [hj]

theorem PoolInv.at_init : PoolInv (pool_run.init : pool_run T) [] where
  len_tags := rfl
  len_owner := rfl
  tag := by intro pos k h; simp at h
  live_mem := by intro k h v hk; simp [pool_run.init] at hk
  nodup := List.nodup_nil
  free_nodup := List.nodup_nil
  free_lt := by intro s hs; simp [pool_run.init, packed_freelist_t.empty] at hs
  free_owner := by intro s hs; simp [pool_run.init, packed_freelist_t.empty] at hs
  gen_le := by intro k h v hk; simp [pool_run.init] at hk
  mono := by intro k k' h h' v v' _ hk; simp [pool_run.init] at hk
  removed_lt := by intro k hk; simp [pool_run.init] at hk

/-- A live ticket never holds a slot that is on the free list or beyond the sparse array. -/
theorem PoolInv.tag_of_live {r : pool_run T} {tags : List Nat} (inv : PoolInv r tags)
    {k : Nat} {h : handle_t} {v : T} (hk : r.issued[k]? = some (h, v)) (hlive : k ∉ r.removed) :
    ∃ pos, tags[pos]? = some k ∧ r.pool.owner[pos]? = some h.index ∧
      r.pool.data[pos]? = some v ∧ r.pool.sparse[h.index]? = some ⟨pos, h.generation⟩ := by
  obtain ⟨pos, hpos⟩ := List.mem_iff_getElem?.1 (inv.live_mem k h v hk hlive)
  obtain ⟨_, h', v', hk', ho, hd, hs⟩ := inv.tag pos k hpos
  rw [hk] at hk'
  cases hk'
  exact ⟨pos, hpos, ho, hd, hs⟩

theorem PoolInv.add_core {r : pool_run T} {tags : List Nat} (inv : PoolInv r tags)
    (value : T) (s g : Nat) (sparse' : List sparse_entry_t) (free' : List Nat)
    (P1 : ∀ pos : Nat, r.pool.owner[pos]? ≠ some s)
    (P2 : ∀ (k : Nat) (h : handle_t) (v : T), r.issued[k]? = some (h, v) → h.index = s → h.generation < g)
    (P3 : sparse'[s]? = some ⟨r.pool.data.length, g⟩)
    (P4 : ∀ s' : Nat, s' ≠ s → sparse'[s']? = r.pool.sparse[s']?)
    (P5 : free'.Nodup) (P6 : ∀ x ∈ free', x ∈ r.pool.freeList) (P7 : s ∉ free')
    (P8 : r.pool.sparse.length ≤ sparse'.length) :
    PoolInv ⟨⟨r.pool.data ++ [value], r.pool.owner ++ [s], sparse', free'⟩,
      r.issued ++ [(⟨s, g⟩, value)], r.removed⟩ (tags ++ [r.issued.length]) := by
  have hfresh : r.issued.length ∉ r.removed := fun h => Nat.lt_irrefl _ (inv.removed_lt _ h)
  -- issued tickets resolve as before or are the new one
  have hiss : ∀ (k : Nat) (h : handle_t) (v : T), (r.issued ++ [(⟨s, g⟩, value)])[k]? = some (h, v) →
      r.issued[k]? = some (h, v) ∨ (k = r.issued.length ∧ h = ⟨s, g⟩ ∧ v = value) := by
    intro k h v hk
    rw [List.getElem?_append] at hk
    split at hk
    · exact Or.inl hk
    · rename_i hlt
      right
      have hk0 : k - r.issued.length = 0 := by
        by_contra hne
        rw [List.getElem?_eq_none (by simp; omega)] at hk
        cases hk
      rw [hk0] at hk
      simp at hk
      exact ⟨by omega, hk.1.symm, hk.2.symm⟩
  constructor
  · simp [inv.len_tags]
  · simp [inv.len_owner]
  · intro pos k hk
    dsimp only
    rw [List.getElem?_append] at hk
    split at hk
    · rename_i hlt
      obtain ⟨hnr, h, v, hk', ho, hd, hs⟩ := inv.tag pos k hk
      have hlt' : pos < r.pool.data.length := inv.len_tags ▸ hlt
      refine ⟨hnr, h, v, ?_, ?_, ?_, ?_⟩
      · rw [List.getElem?_append_left]; exact hk'
        exact (List.getElem?_eq_some.1 hk').1
      · rw [List.getElem?_append_left (by rw [inv.len_owner]; exact hlt')]; exact ho
      · rw [List.getElem?_append_left hlt']; exact hd
      · rw [P4 _ (fun heq => P1 pos (heq ▸ ho))]; exact hs
    · rename_i hlt
      have hk0 : pos - tags.length = 0 := by
        by_contra hne
        rw [List.getElem?_eq_none (by simp; omega)] at hk
        cases hk
      rw [hk0] at hk
      simp at hk
      have hpos : pos = r.pool.data.length := by rw [← inv.len_tags]; omega
      subst hk
      refine ⟨hfresh, ⟨s, g⟩, value, by simp, ?_, ?_, ?_⟩
      · rw [hpos, ← inv.len_owner]; simp
      · rw [hpos]; simp
      · rw [hpos]; exact P3
  · intro k h v hk hlive
    dsimp only at hk hlive
    rcases hiss k h v hk with hk' | ⟨hk', _, _⟩
    · exact List.mem_append_left _ (inv.live_mem k h v hk' hlive)
    · simp [hk']
  · rw [List.nodup_append]
    refine ⟨inv.nodup, List.nodup_singleton _, ?_⟩
    intro a ha hb
    simp at hb
    subst hb
    obtain ⟨pos, hpos⟩ := List.mem_iff_getElem?.1 ha
    obtain ⟨_, h, v, hk', _⟩ := inv.tag pos _ hpos
    have := (List.getElem?_eq_some.1 hk').1
    omega
  · exact P5
  · intro x hx
    exact Nat.lt_of_lt_of_le (inv.free_lt x (P6 x hx)) P8
  · intro x hx pos hpos
    dsimp only at hpos hx
    rw [List.getElem?_append] at hpos
    split at hpos
    · exact inv.free_owner x (P6 x hx) pos hpos
    · rename_i hlt
      have hk0 : pos - r.pool.owner.length = 0 := by
        by_contra hne
        rw [List.getElem?_eq_none (by simp; omega)] at hpos
        cases hpos
      rw [hk0] at hpos
      simp at hpos
      exact P7 (hpos ▸ hx)
  · intro k h v hk
    dsimp only at hk ⊢
    rcases hiss k h v hk with hk' | ⟨hkn, hh, _⟩
    · obtain ⟨e, he, hle, hlt⟩ := inv.gen_le k h v hk'
      by_cases hs : h.index = s
      · refine ⟨_, hs ▸ P3, Nat.le_of_lt (P2 k h v hk' hs), fun _ => P2 k h v hk' hs⟩
      · exact ⟨e, by rw [P4 _ hs]; exact he, hle, hlt⟩
    · subst hh
      exact ⟨_, P3, Nat.le_refl _, fun hr => absurd (hkn ▸ hr) hfresh⟩
  · intro k k' h h' v v' hlt hk hk'
    dsimp only at hk hk'
    intro hidx
    rcases hiss k h v hk with hk1 | ⟨hk1, _, _⟩
    · rcases hiss k' h' v' hk' with hk2 | ⟨_, hh, _⟩
      · exact inv.mono k k' h h' v v' hlt hk1 hk2 hidx
      · subst hh
        exact P2 k h v hk1 hidx
    · have := (List.getElem?_eq_some.1 hk').1
      simp at this
      omega
  · intro k hk
    have := inv.removed_lt k hk
    simp
    omega

theorem PoolInv.owner_tag {r : pool_run T} {tags : List Nat} (inv : PoolInv r tags)
    {pos s : Nat} (ho : r.pool.owner[pos]? = some s) :
    ∃ k h v, tags[pos]? = some k ∧ k ∉ r.removed ∧ r.issued[k]? = some (h, v) ∧ h.index = s ∧
      r.pool.data[pos]? = some v ∧ r.pool.sparse[s]? = some ⟨pos, h.generation⟩ := by
  have hlt : pos < tags.length := by
    rw [inv.len_tags, ← inv.len_owner]; exact (List.getElem?_eq_some.1 ho).1
  obtain ⟨hnr, h, v, hk, ho', hd, hs⟩ := inv.tag pos _ (List.getElem?_eq_getElem hlt)
  rw [ho] at ho'
  cases ho'
  exact ⟨_, h, v, List.getElem?_eq_getElem hlt, hnr, hk, rfl, hd, hs⟩

theorem PoolInv.step_add {r : pool_run T} {tags : List Nat} (inv : PoolInv r tags) (value : T) :
    PoolInv (r.step (.add value)) (tags ++ [r.issued.length]) := by
  cases hfl : r.pool.freeList with
  | nil =>
    have := inv.add_core value r.pool.sparse.length 0 (r.pool.sparse ++ [⟨r.pool.data.length, 0⟩]) []
      (by
        intro pos ho
        obtain ⟨k, h, v, _, _, _, hidx, _, hs⟩ := inv.owner_tag ho
        have := (List.getElem?_eq_some.1 hs).1
        omega)
      (by
        intro k h v hk hidx
        obtain ⟨e, he, _⟩ := inv.gen_le k h v hk
        have := (List.getElem?_eq_some.1 he).1
        omega)
      (by simp)
      (by
        intro s' hs'
        rw [List.getElem?_append]
        split
        · rfl
        · rw [List.getElem?_eq_none (by simp; omega), List.getElem?_eq_none (by omega)])
      List.nodup_nil (by simp) (by simp) (by simp)
    simpa [pool_run.step, packed_freelist_t.add, hfl] using this
  | cons s rest =>
    have hnd := inv.free_nodup
    rw [hfl] at hnd
    have hsmem : s ∈ r.pool.freeList := by rw [hfl]; exact List.mem_cons_self _ _
    have hslt := inv.free_lt s hsmem
    obtain ⟨e, he⟩ : ∃ e, r.pool.sparse[s]? = some e := ⟨_, List.getElem?_eq_getElem hslt⟩
    have := inv.add_core value s e.generation (r.pool.sparse.set s ⟨r.pool.data.length, e.generation⟩)
      rest
      (inv.free_owner s hsmem)
      (by
        intro k h v hk hidx
        obtain ⟨e', he', hle, hlt⟩ := inv.gen_le k h v hk
        rw [hidx, he] at he'
        cases he'
        by_cases hr : k ∈ r.removed
        · exact hlt hr
        · obtain ⟨pos, _, ho, _⟩ := inv.tag_of_live hk hr
          exact absurd (hidx ▸ ho) (inv.free_owner s hsmem pos))
      (by rw [List.getElem?_set_self hslt])
      (by
        intro s' hs'
        rw [List.getElem?_set_ne (fun h => hs' h.symm)])
      (List.nodup_cons.1 hnd).2
      (by intro x hx; rw [hfl]; exact List.mem_cons_of_mem _ hx)
      (List.nodup_cons.1 hnd).1
      (by simp)
    simpa [pool_run.step, packed_freelist_t.add, hfl, he] using this

theorem swapRemove_nodup {l : List Nat} (hl : l.Nodup) {pos : Nat} (hpos : pos < l.length) :
    (swapRemove l pos).Nodup := by
  rw [List.nodup_iff_getElem?_ne_getElem?] at hl ⊢
  intro i j hij hj
  rw [swapRemove_length] at hj
  rw [getElem?_swapRemove l pos i hpos, getElem?_swapRemove l pos j hpos]
  have hi : i < l.length - 1 := by omega
  simp only [hi, hj, if_true]
  by_cases hip : i = pos
  · have hjp : ¬ j = pos := by omega
    simp only [hip, hjp, if_true, if_false]
    exact fun h => hl j (l.length - 1) (by omega) (by omega) h.symm
  · by_cases hjp : j = pos
    · simp only [hip, hjp, if_true, if_false]
      exact hl i (l.length - 1) (by omega) (by omega)
    · simp only [hip, hjp, if_false]
      exact hl i j hij (by omega)

theorem PoolInv.remove_stale {r : pool_run T} {tags : List Nat} (inv : PoolInv r tags)
    {k : Nat} {h : handle_t} {v : T} (hk : r.issued[k]? = some (h, v)) (hr : k ∈ r.removed) :
    r.pool.remove h = none ∧ r.pool.get h = none := by
  obtain ⟨e, he, _, hlt⟩ := inv.gen_le k h v hk
  have hne : ¬ e.generation = h.generation := by have := hlt hr; omega
  constructor
  · simp [packed_freelist_t.remove, he, hne]
  · simp [packed_freelist_t.get, he, hne]

theorem PoolInv.mark_removed {r : pool_run T} {tags : List Nat} (inv : PoolInv r tags)
    {k : Nat} (hr : k ∈ r.removed) : PoolInv ⟨r.pool, r.issued, k :: r.removed⟩ tags where
  len_tags := inv.len_tags
  len_owner := inv.len_owner
  tag := by
    intro pos k' hk'
    obtain ⟨hnr, rest⟩ := inv.tag pos k' hk'
    refine ⟨?_, rest⟩
    simp only [List.mem_cons, not_or]
    exact ⟨fun h => hnr (h ▸ hr), hnr⟩
  live_mem := by
    intro k' h v hk' hnr
    simp only [List.mem_cons, not_or] at hnr
    exact inv.live_mem k' h v hk' hnr.2
  nodup := inv.nodup
  free_nodup := inv.free_nodup
  free_lt := inv.free_lt
  free_owner := inv.free_owner
  gen_le := by
    intro k' h v hk'
    obtain ⟨e, he, hle, hlt⟩ := inv.gen_le k' h v hk'
    refine ⟨e, he, hle, ?_⟩
    intro hmem
    simp only [List.mem_cons] at hmem
    rcases hmem with rfl | hmem
    · exact hlt hr
    · exact hlt hmem
  mono := inv.mono
  removed_lt := by
    intro k' hk'
    simp only [List.mem_cons] at hk'
    rcases hk' with rfl | hk'
    · exact inv.removed_lt _ hr
    · exact inv.removed_lt _ hk'

theorem PoolInv.remove_live {r : pool_run T} {tags : List Nat} (inv : PoolInv r tags)
    {k : Nat} {h : handle_t} {v : T} (hk : r.issued[k]? = some (h, v)) (hnr : k ∉ r.removed) :
    ∃ pool' tags', r.pool.remove h = some (pool', v) ∧
      PoolInv ⟨pool', r.issued, k :: r.removed⟩ tags' := by
  obtain ⟨pos, htag, hown, hdat, hsp⟩ := inv.tag_of_live hk hnr
  have hposd : pos < r.pool.data.length := (List.getElem?_eq_some.1 hdat).1
  have hposo : pos < r.pool.owner.length := (List.getElem?_eq_some.1 hown).1
  have hpost : pos < tags.length := (List.getElem?_eq_some.1 htag).1
  have hidx : h.index < r.pool.sparse.length := (List.getElem?_eq_some.1 hsp).1
  have hlen := inv.len_owner
  have hlent := inv.len_tags
  -- the last dense position and its owner
  obtain ⟨t, hlast⟩ : ∃ t, r.pool.owner[r.pool.owner.length - 1]? = some t :=
    ⟨_, List.getElem?_eq_getElem (by omega)⟩
  obtain ⟨kl, hl, vl, htagl, hnrl, hkl, hidxl, hdatl, hspl⟩ := inv.owner_tag hlast
  have htlt : t < r.pool.sparse.length := (List.getElem?_eq_some.1 hspl).1
  -- distinct positions have distinct slots
  have hslot : ∀ (p1 p2 s1 : Nat) (g1 g2 : Nat), r.pool.sparse[s1]? = some ⟨p1, g1⟩ →
      r.pool.sparse[s1]? = some ⟨p2, g2⟩ → p1 = p2 := by
    intro p1 p2 s1 g1 g2 h1 h2
    rw [h1] at h2
    cases h2
    rfl
  have hsparse : ∀ s' : Nat,
      ((r.pool.sparse.set t ⟨pos, hl.generation⟩).set h.index ⟨pos, h.generation + 1⟩)[s']? =
        if s' = h.index then some ⟨pos, h.generation + 1⟩
        else if s' = t then some ⟨pos, hl.generation⟩ else r.pool.sparse[s']? := by
    intro s'
    rw [List.getElem?_set, List.getElem?_set]
    by_cases h1 : s' = h.index
    · subst h1
      simp [hidx]
    · have h1' : ¬ h.index = s' := fun h => h1 h.symm
      by_cases h2 : s' = t
      · subst h2
        simp [h1, h1', htlt]
      · have h2' : ¬ t = s' := fun h => h2 h.symm
        simp [h1, h1', h2, h2']
  refine ⟨⟨swapRemove r.pool.data pos, swapRemove r.pool.owner pos,
      (r.pool.sparse.set t ⟨pos, hl.generation⟩).set h.index ⟨pos, h.generation + 1⟩,
      h.index :: r.pool.freeList⟩, swapRemove tags pos, ?_, ?_⟩
  · have hlast' : r.pool.owner.getLast? = some t := by
      rw [List.getLast?_eq_getElem?]; exact hlast
    simp [packed_freelist_t.remove, hsp, hdat, hlast', hspl]
  · have hget_t : ∀ j : Nat, (swapRemove tags pos)[j]? =
        if j < r.pool.data.length - 1 then
          (if j = pos then tags[r.pool.data.length - 1]? else tags[j]?) else none := by
      intro j; rw [getElem?_swapRemove tags pos j hpost, hlent]
    have hget_o : ∀ j : Nat, (swapRemove r.pool.owner pos)[j]? =
        if j < r.pool.data.length - 1 then
          (if j = pos then r.pool.owner[r.pool.data.length - 1]? else r.pool.owner[j]?)
        else none := by
      intro j; rw [getElem?_swapRemove r.pool.owner pos j hposo, hlen]
    have hget_d : ∀ j : Nat, (swapRemove r.pool.data pos)[j]? =
        if j < r.pool.data.length - 1 then
          (if j = pos then r.pool.data[r.pool.data.length - 1]? else r.pool.data[j]?)
        else none := by
      intro j; rw [getElem?_swapRemove r.pool.data pos j hposd]
    rw [hlen] at hlast hspl htagl hdatl
    -- tags are injective
    have hinj : ∀ (p1 p2 k1 : Nat), tags[p1]? = some k1 → tags[p2]? = some k1 → p1 = p2 := by
      intro p1 p2 k1 h1 h2
      have hnd := List.nodup_iff_getElem?_ne_getElem?.1 inv.nodup
      have hp1 := (List.getElem?_eq_some.1 h1).1
      have hp2 := (List.getElem?_eq_some.1 h2).1
      rcases Nat.lt_trichotomy p1 p2 with hlt | heq | hgt
      · exact absurd (h1.trans h2.symm) (hnd p1 p2 hlt hp2)
      · exact heq
      · exact absurd (h2.trans h1.symm) (hnd p2 p1 hgt hp1)
    constructor
    · simp [swapRemove_length, hlent]
    · simp [swapRemove_length, hlen]
    · intro pos' k' hk'
      dsimp only at hk' ⊢
      rw [hget_t] at hk'
      split at hk'
      swap
      · cases hk'
      rename_i hlt'
      rw [hget_o, hget_d, if_pos hlt', if_pos hlt']
      by_cases hpp : pos' = pos
      · subst hpp
        rw [if_pos rfl] at hk' ⊢
        rw [if_pos rfl]
        rw [htagl] at hk'
        cases hk'
        have hkne : kl ≠ k := by
          intro heq
          subst heq
          have := hinj _ _ _ htagl htag
          omega
        refine ⟨by simp [hkne, hnrl], hl, vl, hkl, by rw [hlast, hidxl], hdatl, ?_⟩
        rw [hsparse]
        have hne : ¬ hl.index = h.index := by
          intro heq
          have := hslot _ _ _ _ _ hspl (hidxl ▸ heq ▸ hsp)
          omega
        rw [if_neg hne, if_pos hidxl]
      · rw [if_neg hpp] at hk' ⊢
        rw [if_neg hpp]
        obtain ⟨hnr', h', v', hk'', ho', hd', hs'⟩ := inv.tag pos' k' hk'
        have hkne : k' ≠ k := by
          intro heq
          subst heq
          exact hpp (hinj _ _ _ hk' htag)
        refine ⟨by simp [hkne, hnr'], h', v', hk'', ho', hd', ?_⟩
        rw [hsparse]
        have hne : ¬ h'.index = h.index := by
          intro heq
          exact hpp (hslot _ _ _ _ _ hs' (heq ▸ hsp))
        have hne2 : ¬ h'.index = t := by
          intro heq
          have := hslot _ _ _ _ _ hs' (heq ▸ hspl)
          omega
        rw [if_neg hne, if_neg hne2]
        exact hs'
    · intro k' h' v' hk' hnr'
      dsimp only at hk' hnr'
      simp only [List.mem_cons, not_or] at hnr'
      obtain ⟨pos', htag', _⟩ := inv.tag_of_live hk' hnr'.2
      have hpos' := (List.getElem?_eq_some.1 htag').1
      have hpp : pos' ≠ pos := by
        intro heq
        subst heq
        rw [htag] at htag'
        cases htag'
        exact hnr'.1 rfl
      rw [List.mem_iff_getElem?]
      by_cases hlastp : pos' = r.pool.data.length - 1
      · refine ⟨pos, ?_⟩
        rw [hget_t, if_pos (by omega), if_pos rfl, ← hlastp]
        exact htag'
      · refine ⟨pos', ?_⟩
        rw [hget_t, if_pos (by omega), if_neg hpp]
        exact htag'
    · exact swapRemove_nodup inv.nodup hpost
    · refine List.nodup_cons.2 ⟨?_, inv.free_nodup⟩
      intro hmem
      exact inv.free_owner _ hmem pos hown
    · intro s hs
      simp only [List.length_set]
      simp only [List.mem_cons] at hs
      rcases hs with rfl | hs
      · exact hidx
      · exact inv.free_lt s hs
    · intro s hs pos' ho'
      dsimp only at ho' hs
      rw [hget_o] at ho'
      split at ho'
      swap
      · cases ho'
      rename_i hlt'
      have hold : ∃ p, r.pool.owner[p]? = some s ∧ (pos' = pos → p = r.pool.data.length - 1)
          ∧ (pos' ≠ pos → p = pos') := by
        by_cases hpp : pos' = pos
        · rw [if_pos hpp] at ho'
          exact ⟨_, ho', fun _ => rfl, fun h => absurd hpp h⟩
        · rw [if_neg hpp] at ho'
          exact ⟨_, ho', fun h => absurd h hpp, fun _ => rfl⟩
      obtain ⟨p, hp, hp1, hp2⟩ := hold
      simp only [List.mem_cons] at hs
      rcases hs with rfl | hs
      · obtain ⟨_, _, _, _, _, _, _, _, hsp'⟩ := inv.owner_tag hp
        have hpeq := hslot _ _ _ _ _ hsp' hsp
        by_cases hpp : pos' = pos
        · have := hp1 hpp
          omega
        · have := hp2 hpp
          omega
      · exact inv.free_owner s hs p hp
    · intro k' h' v' hk'
      dsimp only at hk' ⊢
      obtain ⟨e, he, hle, hlt⟩ := inv.gen_le k' h' v' hk'
      rw [hsparse]
      by_cases h1 : h'.index = h.index
      · rw [if_pos h1]
        rw [h1, hsp] at he
        cases he
        exact ⟨_, rfl, by simp at hle ⊢; omega, fun _ => by simp at hle ⊢; omega⟩
      · rw [if_neg h1]
        have hk'ne : k' ≠ k := by
          intro heq
          subst heq
          rw [hk] at hk'
          cases hk'
          exact h1 rfl
        by_cases h2 : h'.index = t
        · rw [if_pos h2]
          rw [h2, hspl] at he
          cases he
          refine ⟨_, rfl, hle, ?_⟩
          intro hmem
          simp only [List.mem_cons] at hmem
          rcases hmem with hmem | hmem
          · exact absurd hmem hk'ne
          · exact hlt hmem
        · rw [if_neg h2]
          refine ⟨e, he, hle, ?_⟩
          intro hmem
          simp only [List.mem_cons] at hmem
          rcases hmem with hmem | hmem
          · exact absurd hmem hk'ne
          · exact hlt hmem
    · exact inv.mono
    · intro k' hk'
      simp only [List.mem_cons] at hk'
      rcases hk' with rfl | hk'
      · exact (List.getElem?_eq_some.1 hk).1
      · exact inv.removed_lt _ hk'

theorem PoolInv.after_step {r : pool_run T} {tags : List Nat} (inv : PoolInv r tags) (op : pool_op T) :
    ∃ tags', PoolInv (r.step op) tags' := by
  cases op with
  | add value => exact ⟨_, inv.step_add value⟩
  | remove k =>
    cases hk : r.issued[k]? with
    | none => exact ⟨tags, by simpa [pool_run.step, hk] using inv⟩
    | some hv =>
      obtain ⟨h, v⟩ := hv
      by_cases hr : k ∈ r.removed
      · refine ⟨tags, ?_⟩
        have := inv.mark_removed hr
        simpa [pool_run.step, hk, (inv.remove_stale hk hr).1] using this
      · obtain ⟨pool', tags', hrem, inv'⟩ := inv.remove_live hk hr
        refine ⟨tags', ?_⟩
        simpa [pool_run.step, hk, hrem] using inv'

theorem PoolInv.after_ops (ops : List (pool_op T)) :
    ∀ (r : pool_run T) (tags : List Nat), PoolInv r tags →
      ∃ tags', PoolInv (ops.foldl pool_run.step r) tags' := by
  induction ops with
  | nil => intro r tags inv; exact ⟨tags, inv⟩
  | cons op ops ih =>
    intro r tags inv
    obtain ⟨tags', inv'⟩ := inv.after_step op
    exact ih _ tags' inv'

theorem PoolInv.of_pool_run (ops : List (pool_op T)) : ∃ tags, PoolInv (pool_run.run ops) tags :=
  PoolInv.after_ops ops _ [] PoolInv.at_init

theorem PoolInv.get_live {r : pool_run T} {tags : List Nat} (inv : PoolInv r tags)
    {k : Nat} {h : handle_t} {v : T} (hk : r.issued[k]? = some (h, v)) (hlive : k ∉ r.removed) :
    r.pool.get h = some v := by
  obtain ⟨pos, _, _, hd, hs⟩ := inv.tag_of_live hk hlive
  simp [packed_freelist_t.get, hs, hd]

theorem pool_run.run_concat (ops : List (pool_op T)) (op : pool_op T) :
    pool_run.run (ops ++ [op]) = (pool_run.run ops).step op := by
  simp [pool_run.run, List.foldl_append]

theorem pool_run.step_remove_log (r : pool_run T) (k : Nat) :
    (r.step (.remove k)).issued = r.issued ∧
      ∀ k', k' ∈ (r.step (.remove k)).removed → k' = k ∨ k' ∈ r.removed := by
  cases hk : r.issued[k]? with
  | none =>
    simp only [pool_run.step, hk]
    exact ⟨trivial, fun k' h => Or.inr h⟩
  | some hv =>
    obtain ⟨h, v⟩ := hv
    cases hrem : r.pool.remove h <;> simp [pool_run.step, hk, hrem]

theorem filterMap_range_getElem? {α : Type} (l : List α) :
    (List.range l.length).filterMap (fun i => l[i]?) = l := by
  induction l using List.reverseRecOn with
  | nil => rfl
  | append_singleton l a ih =>
    rw [List.length_append, List.length_singleton, List.range_succ, List.filterMap_append]
    have h1 : (List.range l.length).filterMap (fun i => (l ++ [a])[i]?)
        = (List.range l.length).filterMap (fun i => l[i]?) := by
      apply List.filterMap_congr
      intro i hi
      rw [List.mem_range] at hi
      rw [List.getElem?_append_left hi]
    rw [h1, ih]
    simp

theorem PoolInv.iterate_mem {r : pool_run T} {tags : List Nat} (inv : PoolInv r tags)
    (h : handle_t) (v : T) : (h, v) ∈ r.pool.iterate ↔ (h, v) ∈ r.liveEntries := by
  simp only [packed_freelist_t.iterate, pool_run.liveEntries, List.mem_filterMap, List.mem_range]
  constructor
  · rintro ⟨pos, hpos, hF⟩
    have hlt : pos < r.pool.owner.length := by rw [inv.len_owner]; exact hpos
    obtain ⟨k, h0, v0, _, hnr, hk, hidx, hd, hs⟩ := inv.owner_tag (List.getElem?_eq_getElem hlt)
    refine ⟨k, (List.getElem?_eq_some.1 hk).1, ?_⟩
    rw [if_neg hnr, hk]
    simp only [packed_freelist_t.handleAt, List.getElem?_eq_getElem hlt, hs, hd] at hF
    rw [← hF]
    cases h0
    simp at hidx ⊢
    exact hidx
  · rintro ⟨k, hklt, hF⟩
    by_cases hnr : k ∈ r.removed
    · simp [hnr] at hF
    · rw [if_neg hnr] at hF
      obtain ⟨pos, _, ho, hd, hs⟩ := inv.tag_of_live hF hnr
      refine ⟨pos, (List.getElem?_eq_some.1 hd).1, ?_⟩
      simp [packed_freelist_t.handleAt, ho, hs, hd]

theorem PoolInv.iterate_nodup {r : pool_run T} {tags : List Nat} (inv : PoolInv r tags) :
    (r.pool.iterate.map Prod.fst).Nodup := by
  unfold packed_freelist_t.iterate
  rw [List.map_filterMap]
  refine List.Nodup.filterMap ?_ (List.nodup_range _)
  intro pos pos' h hm hm'
  have key : ∀ p : Nat, h ∈ Option.map Prod.fst
      (match r.pool.handleAt p, r.pool.data[p]? with
        | some h, some v => some (h, v)
        | _, _ => none) →
      ∃ g : Nat, r.pool.sparse[h.index]? = some ⟨p, g⟩ := by
    intro p hp
    cases ho : r.pool.owner[p]? with
    | none => simp [packed_freelist_t.handleAt, ho] at hp
    | some s =>
      obtain ⟨k, h0, v0, _, _, _, hidx, hd, hs⟩ := inv.owner_tag ho
      simp [packed_freelist_t.handleAt, ho, hs, hd] at hp
      subst hp
      exact ⟨_, hs⟩
  obtain ⟨g, hg⟩ := key pos hm
  obtain ⟨g', hg'⟩ := key pos' hm'
  rw [hg] at hg'
  cases hg'
  rfl

theorem PoolInv.liveEntries_nodup {r : pool_run T} {tags : List Nat} (inv : PoolInv r tags) :
    (r.liveEntries.map Prod.fst).Nodup := by
  unfold pool_run.liveEntries
  rw [List.map_filterMap]
  refine List.Nodup.filterMap ?_ (List.nodup_range _)
  intro k k' h hm hm'
  have key : ∀ j : Nat, h ∈ Option.map Prod.fst (if j ∈ r.removed then none else r.issued[j]?) →
      ∃ v, r.issued[j]? = some (h, v) := by
    intro j hj
    by_cases hr : j ∈ r.removed
    · simp [hr] at hj
    · rw [if_neg hr] at hj
      simp only [Option.mem_def, Option.map_eq_some'] at hj
      obtain ⟨⟨h', v⟩, hj, rfl⟩ := hj
      exact ⟨v, hj⟩
  obtain ⟨v, hv⟩ := key k hm
  obtain ⟨v', hv'⟩ := key k' hm'
  rcases Nat.lt_trichotomy k k' with hlt | heq | hgt
  · exact absurd (inv.mono k k' h h v v' hlt hv hv' rfl) (Nat.lt_irrefl _)
  · exact heq
  · exact absurd (inv.mono k' k h h v' v hgt hv' hv rfl) (Nat.lt_irrefl _)

theorem PoolInv.iterate_perm {r : pool_run T} {tags : List Nat} (inv : PoolInv r tags) :
    r.pool.iterate.Perm r.liveEntries := by
  classical
  rw [List.perm_ext_iff_of_nodup (List.Nodup.of_map _ inv.iterate_nodup)
    (List.Nodup.of_map _ inv.liveEntries_nodup)]
  rintro ⟨h, v⟩
  exact inv.iterate_mem h v

theorem PoolInv.iterate_values {r : pool_run T} {tags : List Nat} (inv : PoolInv r tags) :
    r.pool.iterate.map Prod.snd = r.pool.getData := by
  unfold packed_freelist_t.iterate packed_freelist_t.getData
  rw [List.map_filterMap]
  conv_rhs => rw [← filterMap_range_getElem? r.pool.data]
  apply List.filterMap_congr
  intro pos hpos
  rw [List.mem_range] at hpos
  have hlt : pos < r.pool.owner.length := by rw [inv.len_owner]; exact hpos
  obtain ⟨k, h0, v0, _, _, _, _, hd, hs⟩ := inv.owner_tag (List.getElem?_eq_getElem hlt)
  simp [packed_freelist_t.handleAt, List.getElem?_eq_getElem hlt, hs, hd]

theorem pool_run.liveEntries_values (r : pool_run T) :
    r.liveEntries.map Prod.snd = r.liveValues := by
  unfold pool_run.liveEntries pool_run.liveValues
  rw [List.map_filterMap]
  apply List.filterMap_congr
  intro k _
  by_cases hr : k ∈ r.removed <;> simp [hr]

theorem pool_run.run_scenario (a b c d : T) :
    pool_run.run [pool_op.add a, .add b, .add c, .remove 1, .add d] =
      ⟨⟨[a, c, d], [0, 2, 1], [⟨0, 0⟩, ⟨2, 1⟩, ⟨1, 0⟩], []⟩,
        [(⟨0, 0⟩, a), (⟨1, 0⟩, b), (⟨2, 0⟩, c), (⟨1, 1⟩, d)], [1]⟩ := by
  simp [pool_run.run, pool_run.init, pool_run.step, packed_freelist_t.add,
    packed_freelist_t.remove, packed_freelist_t.empty, swapRemove]

open pool_run

/-- C1: in every run of `add` and `remove` operations, a handle returned by `add`
and not yet removed resolves through `get` to the value stored under it, and it
still does after the removal (with its swap-with-last compaction) of any other
ticket. -/
theorem packed_freelist_get_live (ops : List (pool_op T)) (k : Nat) (h : handle_t) (v : T)
    (hk : (run ops).issued[k]? = some (h, v)) (hlive : k ∉ (run ops).removed) :
    (run ops).pool.get h = some v
      ∧ ∀ k' : Nat, k' ≠ k → ((run ops).step (.remove k')).pool.get h = some v := by
  obtain ⟨tags, inv⟩ := PoolInv.of_pool_run ops
  refine ⟨inv.get_live hk hlive, ?_⟩
  intro k' hne
  obtain ⟨tags', inv'⟩ := inv.after_step (.remove k')
  obtain ⟨hiss, hrem⟩ := pool_run.step_remove_log (run ops) k'
  refine inv'.get_live (by rw [hiss]; exact hk) ?_
  intro hmem
  rcases hrem k hmem with heq | hmem
  · exact hne heq.symm
  · exact hlive hmem

/-- Witness for C1: after three adds, the removal of the middle one and a fourth
add, the handle of the third value still resolves to it. -/
theorem packed_freelist_get_live_witness :
    (run [pool_op.add 10, .add 20, .add 30, .remove 1, .add 40]).issued[2]? = some (⟨2, 0⟩, 30)
      ∧ 2 ∉ (run [pool_op.add 10, .add 20, .add 30, .remove 1, .add 40]).removed
      ∧ (run [pool_op.add 10, .add 20, .add 30, .remove 1, .add 40]).pool.get ⟨2, 0⟩ = some 30 :=
  ⟨by decide, by decide,
    (packed_freelist_get_live [pool_op.add 10, .add 20, .add 30, .remove 1, .add 40] 2 ⟨2, 0⟩ 30
      (by decide) (by decide)).1⟩

/-- C2: once a handle has been passed to `remove`, `get` reports absence for it
from then on; a later `add` that reuses its slot index returns a different
handle, of a strictly newer generation, and that handle (not the old one)
resolves to the new occupant. -/
theorem packed_freelist_get_removed (ops : List (pool_op T)) (k : Nat) (h : handle_t) (v : T)
    (hk : (run ops).issued[k]? = some (h, v)) (hr : k ∈ (run ops).removed) :
    (run ops).pool.get h = none
      ∧ ∀ (k' : Nat) (h' : handle_t) (v' : T), k < k' →
          (run ops).issued[k']? = some (h', v') → h'.index = h.index →
          h' ≠ h ∧ h.generation < h'.generation
            ∧ (k' ∉ (run ops).removed → (run ops).pool.get h' = some v') := by
  obtain ⟨tags, inv⟩ := PoolInv.of_pool_run ops
  refine ⟨(inv.remove_stale hk hr).2, ?_⟩
  intro k' h' v' hlt hk' hidx
  have hgen := inv.mono k k' h h' v v' hlt hk hk' hidx.symm
  refine ⟨?_, hgen, fun hlive => inv.get_live hk' hlive⟩
  intro heq
  rw [heq] at hgen
  exact Nat.lt_irrefl _ hgen

/-- Witness for C2: slot 0 is freed and reused; the old handle is absent and the
new one has generation 1. -/
theorem packed_freelist_get_removed_witness :
    (run [pool_op.add 10, .add 20, .remove 0, .add 30]).issued[0]? = some (⟨0, 0⟩, 10)
      ∧ 0 ∈ (run [pool_op.add 10, .add 20, .remove 0, .add 30]).removed
      ∧ (run [pool_op.add 10, .add 20, .remove 0, .add 30]).pool.get ⟨0, 0⟩ = none
      ∧ (run [pool_op.add 10, .add 20, .remove 0, .add 30]).issued[2]? = some (⟨0, 1⟩, 30)
      ∧ (run [pool_op.add 10, .add 20, .remove 0, .add 30]).pool.get ⟨0, 1⟩ = some 30 :=
  ⟨by decide, by decide,
    (packed_freelist_get_removed [pool_op.add 10, .add 20, .remove 0, .add 30] 0 ⟨0, 0⟩ 10
      (by decide) (by decide)).1,
    by decide, by decide⟩

/-- C3: after any run, the traversal from `begin()` to `end()` yields the dense
`getData()` array, which holds each live value exactly once and nothing else; the
handles met are pairwise distinct and each resolves to the value met with it.
After adding three values, removing the middle one and adding a fourth, three
entries are visited and the first and third handles still resolve. -/
theorem packed_freelist_iterate_live (ops : List (pool_op T)) :
    (run ops).pool.iterate.map Prod.snd = (run ops).pool.getData
      ∧ (run ops).pool.getData.Perm (run ops).liveValues
      ∧ (run ops).pool.iterate.Perm (run ops).liveEntries
      ∧ ((run ops).pool.iterate.map Prod.fst).Nodup
      ∧ (∀ (h : handle_t) (v : T), (h, v) ∈ (run ops).pool.iterate →
          (run ops).pool.get h = some v)
      ∧ (∀ a b c d : T,
          (run [pool_op.add a, .add b, .add c, .remove 1, .add d]).pool.iterate.length = 3
          ∧ (run [pool_op.add a, .add b, .add c, .remove 1, .add d]).pool.getData = [a, c, d]
          ∧ (run [pool_op.add a, .add b, .add c, .remove 1, .add d]).issued[0]? = some (⟨0, 0⟩, a)
          ∧ (run [pool_op.add a, .add b, .add c, .remove 1, .add d]).issued[2]? = some (⟨2, 0⟩, c)
          ∧ (run [pool_op.add a, .add b, .add c, .remove 1, .add d]).pool.get ⟨0, 0⟩ = some a
          ∧ (run [pool_op.add a, .add b, .add c, .remove 1, .add d]).pool.get ⟨2, 0⟩ = some c) := by
  obtain ⟨tags, inv⟩ := PoolInv.of_pool_run ops
  refine ⟨inv.iterate_values, ?_, inv.iterate_perm, inv.iterate_nodup, ?_, ?_⟩
  · rw [← inv.iterate_values, ← pool_run.liveEntries_values]
    exact inv.iterate_perm.map _
  · intro h v hmem
    rw [inv.iterate_mem] at hmem
    simp only [pool_run.liveEntries, List.mem_filterMap, List.mem_range] at hmem
    obtain ⟨k, _, hF⟩ := hmem
    by_cases hnr : k ∈ (run ops).removed
    · simp [hnr] at hF
    · rw [if_neg hnr] at hF
      exact inv.get_live hF hnr
  · intro a b c d
    rw [pool_run.run_scenario]
    exact ⟨rfl, rfl, rfl, rfl, rfl, rfl⟩

end pool
end bkk

/-! ## Theorems: the transform manager -/

namespace bkk
namespace transform_manager_t

open maths

section store
variable {K : Type}


theorem getNode_eq_some {m : transform_manager_t K} {h : handle_t} {nd : transform_node_t K} :
    m.getNode h = some nd ↔
      ∃ s, m.slots[h.index]? = some s ∧ s.generation = h.generation ∧ s.node = some nd := by
  unfold getNode
  cases hs : m.slots[h.index]? with
  | none => simp
  | some s =>
    by_cases hg : s.generation = h.generation
    · simp [hg]
    · simp [hg]

theorem index_lt_of_getNode {m : transform_manager_t K} {h : handle_t} {nd : transform_node_t K}
    (hn : m.getNode h = some nd) : h.index < m.slots.length := by
  obtain ⟨s, hs, _⟩ := getNode_eq_some.1 hn
  exact (List.getElem?_eq_some.1 hs).1

theorem getNode_setNode {m : transform_manager_t K} {h : handle_t} {nd0 : transform_node_t K}
    (hlive : m.getNode h = some nd0) (nd : transform_node_t K) (h' : handle_t) :
    (m.setNode h nd).getNode h' = if h' = h then some nd else m.getNode h' := by
  obtain ⟨s, hs, hg, _⟩ := getNode_eq_some.1 hlive
  have hlt := (List.getElem?_eq_some.1 hs).1
  by_cases heq : h' = h
  · subst heq
    simp [getNode, setNode, hlt]
  · rw [if_neg heq]
    by_cases hidx : h'.index = h.index
    · have hgen : ¬ h.generation = h'.generation := by
        intro hgen
        apply heq
        cases h; cases h'
        simp at hidx hgen ⊢
        exact ⟨hidx, hgen.symm⟩
      have hgen' : ¬ s.generation = h'.generation := by rw [hg]; exact hgen
      simp [getNode, setNode, hidx, hlt, hs, hgen, hgen']
    · have hidx' : ¬ h.index = h'.index := fun e => hidx e.symm
      simp [getNode, setNode, List.getElem?_set, hidx']

theorem length_setNode (m : transform_manager_t K) (h : handle_t) (nd : transform_node_t K) :
    (m.setNode h nd).slots.length = m.slots.length := by
  simp [setNode]

theorem getNode_clearDirty (m : transform_manager_t K) (h : handle_t) :
    m.clearDirty.getNode h = (m.getNode h).map fun nd => { nd with dirty := false } := by
  unfold getNode clearDirty
  simp only [List.getElem?_map]
  cases hs : m.slots[h.index]? with
  | none => simp
  | some s =>
    by_cases hg : s.generation = h.generation
    · simp [hg]
    · simp [hg]

theorem Rooted.depth_unique {m : transform_manager_t K} {d : Nat} {h : handle_t}
    (hr : Rooted m d h) : ∀ {d' : Nat}, Rooted m d' h → d = d' := by
  induction hr with
  | root h nd hn hp =>
    intro d' hr'
    cases hr' with
    | root _ nd' hn' hp' => rfl
    | child _ _ ph nd' hn' hp' _ =>
      rw [hn] at hn'; cases hn'; rw [hp] at hp'; cases hp'
  | child d h ph nd hn hp _ ih =>
    intro d' hr'
    cases hr' with
    | root _ nd' hn' hp' =>
      rw [hn] at hn'; cases hn'; rw [hp] at hp'; cases hp'
    | child d'' _ ph' nd' hn' hp' hrp' =>
      rw [hn] at hn'; cases hn'; rw [hp] at hp'; cases hp'
      rw [ih hrp']

theorem Rooted.node_live {m : transform_manager_t K} {d : Nat} {h : handle_t}
    (hr : Rooted m d h) : ∃ nd, m.getNode h = some nd := by
  cases hr with
  | root h nd hn _ => exact ⟨nd, hn⟩
  | child d h ph nd hn _ _ => exact ⟨nd, hn⟩

theorem depth?_eq_some {m : transform_manager_t K} :
    ∀ (fuel : Nat) (h : handle_t) (d : Nat),
      m.depth? fuel h = some d ↔ Rooted m d h ∧ d < fuel := by
  intro fuel
  induction fuel with
  | zero =>
    intro h d
    simp [depth?]
  | succ f ih =>
    intro h d
    constructor
    · intro hd
      unfold depth? at hd
      cases hn : m.getNode h with
      | none => simp [hn] at hd
      | some nd =>
        cases hp : nd.parent with
        | none =>
          simp [hn, hp] at hd
          subst hd
          exact ⟨Rooted.root h nd hn hp, Nat.succ_pos _⟩
        | some ph =>
          simp only [hn, hp, Option.map_eq_some'] at hd
          obtain ⟨d', hd', rfl⟩ := hd
          obtain ⟨hr, hlt⟩ := (ih ph d').1 hd'
          exact ⟨Rooted.child d' h ph nd hn hp hr, Nat.succ_lt_succ hlt⟩
    · rintro ⟨hr, hlt⟩
      cases hr with
      | root h nd hn hp => simp [depth?, hn, hp]
      | child d' h ph nd hn hp hrp =>
        have := (ih ph d').2 ⟨hrp, Nat.lt_of_succ_lt_succ hlt⟩
        simp [depth?, hn, hp, this]

theorem Rooted.exists_of_rank {m : transform_manager_t K} (hlive : ∀ (h : handle_t)
      (nd : transform_node_t K) (ph : handle_t),
      m.getNode h = some nd → nd.parent = some ph → (m.getNode ph).isSome)
    (rank : handle_t → Nat)
    (hrank : ∀ (h : handle_t) (nd : transform_node_t K) (ph : handle_t),
      m.getNode h = some nd → nd.parent = some ph → rank ph < rank h) :
    ∀ (r : Nat) (h : handle_t) (nd : transform_node_t K), rank h ≤ r →
      m.getNode h = some nd → ∃ d, Rooted m d h := by
  intro r
  induction r with
  | zero =>
    intro h nd hr hn
    cases hp : nd.parent with
    | none => exact ⟨0, Rooted.root h nd hn hp⟩
    | some ph =>
      have := hrank h nd ph hn hp
      omega
  | succ r ih =>
    intro h nd hr hn
    cases hp : nd.parent with
    | none => exact ⟨0, Rooted.root h nd hn hp⟩
    | some ph =>
      have hlt := hrank h nd ph hn hp
      obtain ⟨pn, hpn⟩ := Option.isSome_iff_exists.1 (hlive h nd ph hn hp)
      obtain ⟨d, hd⟩ := ih ph pn (by omega) hpn
      exact ⟨d + 1, Rooted.child d h ph nd hn hp hd⟩

theorem handle_eq_of_live {m : transform_manager_t K} {x y : handle_t}
    {nx ny : transform_node_t K} (hx : m.getNode x = some nx) (hy : m.getNode y = some ny)
    (hidx : x.index = y.index) : x = y := by
  obtain ⟨s, hs, hg, _⟩ := getNode_eq_some.1 hx
  obtain ⟨s', hs', hg', _⟩ := getNode_eq_some.1 hy
  rw [hidx, hs'] at hs
  cases hs
  cases x; cases y
  simp at hidx hg hg' ⊢
  exact ⟨hidx, by rw [← hg, ← hg']⟩

theorem Rooted.chain {m : transform_manager_t K} (rank : handle_t → Nat)
    (hrank : ∀ (h : handle_t) (nd : transform_node_t K) (ph : handle_t),
      m.getNode h = some nd → nd.parent = some ph → rank ph < rank h)
    {d : Nat} {h : handle_t} (hr : Rooted m d h) :
    ∃ l : List handle_t, l.length = d + 1 ∧ l.Nodup ∧ (∀ x ∈ l, (m.getNode x).isSome) ∧
      (∀ x ∈ l, rank x ≤ rank h) := by
  induction hr with
  | root h nd hn hp =>
    refine ⟨[h], rfl, List.nodup_singleton _, ?_, ?_⟩
    · intro i hi
      simp only [List.mem_singleton] at hi
      subst hi
      simp [hn]
    · intro i hi
      simp only [List.mem_singleton] at hi
      subst hi
      exact Nat.le_refl _
  | child d h ph nd hn hp _ ih =>
    obtain ⟨l, hlen, hnd, hlt, hrk⟩ := ih
    have hlt' := hrank h nd ph hn hp
    refine ⟨h :: l, by simp [hlen], List.nodup_cons.2 ⟨?_, hnd⟩, ?_, ?_⟩
    · intro hmem
      have := hrk _ hmem
      omega
    · intro i hi
      simp only [List.mem_cons] at hi
      rcases hi with rfl | hi
      · simp [hn]
      · exact hlt i hi
    · intro i hi
      simp only [List.mem_cons] at hi
      rcases hi with rfl | hi
      · exact Nat.le_refl _
      · have := hrk i hi
        omega

theorem mem_liveHandles {m : transform_manager_t K} {h : handle_t} :
    h ∈ m.liveHandles ↔ (m.getNode h).isSome := by
  simp only [liveHandles, List.mem_filterMap, List.mem_range]
  constructor
  · rintro ⟨i, hi, hF⟩
    cases hs : m.slots[i]? with
    | none => simp [hs] at hF
    | some s =>
      rw [hs] at hF
      by_cases hnode : s.node.isSome
      · simp only [hnode, if_true, Option.some.injEq] at hF
        subst hF
        simp [getNode, hs, hnode]
      · simp [hnode] at hF
  · intro hlive
    obtain ⟨nd, hn⟩ := Option.isSome_iff_exists.1 hlive
    obtain ⟨s, hs, hg, hnode⟩ := getNode_eq_some.1 hn
    refine ⟨h.index, (List.getElem?_eq_some.1 hs).1, ?_⟩
    rw [hs]
    simp [hnode, hg]

theorem nodup_liveHandles (m : transform_manager_t K) : m.liveHandles.Nodup := by
  unfold liveHandles
  refine List.Nodup.filterMap ?_ (List.nodup_range _)
  intro i j h hi hj
  have key : ∀ k : Nat, h ∈ (match m.slots[k]? with
      | none => none
      | some s => if s.node.isSome then some (⟨k, s.generation⟩ : handle_t) else none) →
      h.index = k := by
    intro k hk
    cases hs : m.slots[k]? with
    | none => simp [hs] at hk
    | some s =>
      rw [hs] at hk
      by_cases hnode : s.node.isSome
      · simp only [hnode, if_true, Option.mem_def, Option.some.injEq] at hk
        rw [← hk]
      · simp [hnode] at hk
  rw [← key i hi, ← key j hj]

theorem mem_order {m : transform_manager_t K} {h : handle_t} :
    h ∈ m.order ↔ (m.getNode h).isSome ∧
      ∃ d, d < m.slots.length ∧ m.depth? m.slots.length h = some d := by
  simp only [order, List.mem_flatMap, List.mem_range, List.mem_filter, mem_liveHandles,
    decide_eq_true_eq]
  constructor
  · rintro ⟨d, hd, hl, hdep⟩
    exact ⟨hl, d, hd, hdep⟩
  · rintro ⟨hl, d, hd, hdep⟩
    exact ⟨d, hd, hl, hdep⟩

theorem nodup_order (m : transform_manager_t K) : m.order.Nodup := by
  unfold order
  rw [List.nodup_flatMap]
  refine ⟨fun d _ => (nodup_liveHandles m).filter _, ?_⟩
  refine (List.pairwise_lt_range _).imp ?_
  intro d d' hlt
  simp only [Function.onFun]
  intro h h1 h2
  simp only [List.mem_filter, decide_eq_true_eq] at h1 h2
  rw [h1.2] at h2
  cases h2.2
  exact Nat.lt_irrefl _ hlt

theorem sorted_order (m : transform_manager_t K) :
    m.order.Pairwise fun a b => ∀ da db : Nat, Rooted m da a → Rooted m db b → da ≤ db := by
  unfold order
  rw [List.pairwise_flatMap]
  constructor
  · intro d _
    apply List.pairwise_of_forall_mem_list
    intro a ha b hb da db hra hrb
    simp only [List.mem_filter, decide_eq_true_eq] at ha hb
    have h1 := ((depth?_eq_some _ _ _).1 ha.2).1
    have h2 := ((depth?_eq_some _ _ _).1 hb.2).1
    rw [hra.depth_unique h1, hrb.depth_unique h2]
  · refine (List.pairwise_lt_range _).imp ?_
    intro d d' hlt a ha b hb da db hra hrb
    simp only [List.mem_filter, decide_eq_true_eq] at ha hb
    have h1 := ((depth?_eq_some _ _ _).1 ha.2).1
    have h2 := ((depth?_eq_some _ _ _).1 hb.2).1
    rw [hra.depth_unique h1, hrb.depth_unique h2]
    exact Nat.le_of_lt hlt

theorem TopoFrom.of_sorted {m : transform_manager_t K} (l : List handle_t)
    (hnd : l.Nodup)
    (hsorted : l.Pairwise fun a b => ∀ da db : Nat, Rooted m da a → Rooted m db b → da ≤ db)
    (hmem : ∀ h ∈ l, ∃ d, Rooted m d h)
    (hclosed : ∀ h ∈ l, ∀ (nd : transform_node_t K) (ph : handle_t), m.getNode h = some nd →
      nd.parent = some ph → ph ∈ l) :
    ∀ (pre suf : List handle_t), l = pre ++ suf → TopoFrom m pre.reverse suf := by
  intro pre suf
  induction suf generalizing pre with
  | nil => intro _; trivial
  | cons h t ih =>
    intro hl
    have hnd' := hnd
    rw [hl, List.nodup_append] at hnd'
    obtain ⟨_, hnd2, hdisj⟩ := hnd'
    have hsorted' := hsorted
    rw [hl, List.pairwise_append] at hsorted'
    obtain ⟨_, hs2, _⟩ := hsorted'
    have hhl : h ∈ l := by rw [hl]; simp
    obtain ⟨d, hd⟩ := hmem h hhl
    obtain ⟨nd0, hn0⟩ := hd.node_live
    refine ⟨?_, by simp [hn0], ?_, ?_⟩
    · intro hmem'
      exact hdisj (List.mem_reverse.1 hmem') (List.mem_cons_self _ _)
    · intro nd ph hn hp
      have hphl := hclosed h hhl nd ph hn hp
      rw [hl, List.mem_append, List.mem_cons] at hphl
      obtain ⟨dp, hdp⟩ := hmem ph (hclosed h hhl nd ph hn hp)
      have hdh : Rooted m (dp + 1) h := Rooted.child dp h ph nd hn hp hdp
      rcases hphl with hphl | hphl | hphl
      · exact List.mem_reverse.2 hphl
      · subst hphl
        have := hdh.depth_unique hdp
        omega
      · have := (List.pairwise_cons.1 hs2).1 ph hphl (dp + 1) dp hdh hdp
        omega
    · have := ih (pre ++ [h]) (by rw [hl]; simp)
      simpa using this

theorem isSelfOrDescendant_complete {m : transform_manager_t K} {p c : handle_t}
    (h : SelfOrDescendant m p c) : ∀ fuel : Nat, m.isSelfOrDescendant fuel p c = true := by
  induction h with
  | self c _ =>
    intro fuel
    cases fuel <;> simp [isSelfOrDescendant]
  | step p q c hpq _ ih =>
    intro fuel
    cases fuel with
    | zero => rfl
    | succ f =>
      unfold isSelfOrDescendant
      by_cases hpc : p = c
      · simp [hpc]
      · simp [hpc, hpq, ih f]

theorem isSelfOrDescendant_sound {m : transform_manager_t K} :
    ∀ (fuel : Nat) (p c : handle_t), m.isSelfOrDescendant fuel p c = false →
      ¬ SelfOrDescendant m p c := by
  intro fuel
  induction fuel with
  | zero => intro p c h; simp [isSelfOrDescendant] at h
  | succ f ih =>
    intro p c h hsd
    unfold isSelfOrDescendant at h
    by_cases hpc : p = c
    · simp [hpc] at h
    · simp only [hpc, if_false] at h
      cases hsd with
      | self _ _ => exact hpc rfl
      | step _ q _ hpq hq =>
        rw [hpq] at h
        exact ih q c h hq

theorem getParent_eq_some {m : transform_manager_t K} {x y : handle_t} :
    m.getParent x = some y ↔ ∃ nd, m.getNode x = some nd ∧ nd.parent = some y := by
  unfold getParent
  cases m.getNode x <;> simp

theorem getNode_destroyTransform {m : transform_manager_t K} {h : handle_t}
    {nd0 : transform_node_t K} (hn : m.getNode h = some nd0) (x : handle_t) :
    (m.destroyTransform h).2.getNode x =
      if x = h then none
      else (m.getNode x).map fun nd =>
        if nd.parent = some h then { nd with parent := none, dirty := true } else nd := by
  obtain ⟨s, hs, hg, _⟩ := getNode_eq_some.1 hn
  have hlt := (List.getElem?_eq_some.1 hs).1
  simp only [transform_manager_t.destroyTransform, hn]
  unfold getNode
  simp only [List.getElem?_map, List.getElem?_set]
  by_cases hidx : x.index = h.index
  · have hidx' : h.index = x.index := hidx.symm
    simp only [hidx', if_true]
    rw [← hidx'] 
    simp only [hlt, if_true, Option.map_some', detach]
    by_cases hxh : x = h
    · simp [hxh]
    · have hgen : ¬ s.generation = x.generation := by
        intro hgen
        apply hxh
        cases x; cases h
        simp at hidx hg hgen ⊢
        exact ⟨hidx, by rw [← hgen, hg]⟩
      simp [hxh, hs, hgen]
  · have hidx' : ¬ h.index = x.index := fun e => hidx e.symm
    have hxh : ¬ x = h := fun e => hidx (by rw [e])
    simp only [hidx', if_false, hxh]
    cases hsx : m.slots[x.index]? with
    | none => simp
    | some sx =>
      simp only [Option.map_some']
      cases hnode : sx.node with
      | none => simp [detach, hnode]
      | some nd =>
        by_cases hp : nd.parent = some h
        · by_cases hgx : sx.generation = x.generation <;> simp [detach, hnode, hp, hgx]
        · by_cases hgx : sx.generation = x.generation <;> simp [detach, hnode, hp, hgx]

theorem SelfOrDescendant.live_left {m : transform_manager_t K} {p c : handle_t}
    (h : SelfOrDescendant m p c) : ∃ nd, m.getNode p = some nd := by
  cases h with
  | self _ hl => exact Option.isSome_iff_exists.1 hl
  | step _ q _ hpq _ =>
    obtain ⟨nd, hn, _⟩ := getParent_eq_some.1 hpq
    exact ⟨nd, hn⟩

theorem SelfOrDescendant.live_right {m : transform_manager_t K} {p c : handle_t}
    (h : SelfOrDescendant m p c) : ∃ nd, m.getNode c = some nd := by
  induction h with
  | self _ hl => exact Option.isSome_iff_exists.1 hl
  | step _ _ _ _ _ ih => exact ih

theorem setParent_failed_unchanged (m : transform_manager_t K) (c p : handle_t)
    (hfail : (m.setParent c p).1 ≠ transform_result.ok) : (m.setParent c p).2 = m := by
  unfold transform_manager_t.setParent at hfail ⊢
  cases hc : m.getNode c with
  | none => rfl
  | some cn =>
    cases hp : m.getNode p with
    | none => rfl
    | some pn =>
      simp only [hc, hp] at hfail ⊢
      split
      · rfl
      · rename_i hcyc
        simp [hcyc] at hfail

theorem clearDirty_clearDirty (m : transform_manager_t K) :
    m.clearDirty.clearDirty = m.clearDirty := by
  unfold clearDirty
  simp only [List.map_map]
  congr 1
  apply List.map_congr_left
  intro s _
  cases hs : s.node <;> simp [hs]

/-- C5: `setParent(child, parent)` fails with the cycle error whenever `parent`
is `child` or a descendant of `child`, and a call that fails, for this or any
other reason, returns the manager unchanged, so every parent chain is as before. -/
theorem setParent_cycle (m : transform_manager_t K) (child parent : handle_t)
    (hdesc : SelfOrDescendant m parent child) :
    m.setParent child parent = (transform_result.cycleError, m)
      ∧ (∀ x : handle_t, (m.setParent child parent).2.getParent x = m.getParent x)
      ∧ (∀ c p : handle_t, (m.setParent c p).1 ≠ transform_result.ok →
          (m.setParent c p).2 = m) := by
  obtain ⟨pn, hp⟩ := hdesc.live_left
  obtain ⟨cn, hc⟩ := hdesc.live_right
  have hres : m.setParent child parent = (transform_result.cycleError, m) := by
    simp [transform_manager_t.setParent, hp, hc, isSelfOrDescendant_complete hdesc]
  refine ⟨hres, ?_, setParent_failed_unchanged m⟩
  intro x
  rw [hres]

end store

section transform
variable {K : Type} [CommRing K]

theorem processNode_root {m : transform_manager_t K} {h : handle_t} {nd : transform_node_t K}
    (hn : m.getNode h = some nd) (hp : nd.parent = none) :
    m.processNode h = if nd.dirty then m.setNode h { nd with world := nd.compose } else m := by
  simp only [processNode, hn, hp]

theorem processNode_child {m : transform_manager_t K} {h ph : handle_t}
    {nd pn : transform_node_t K} (hn : m.getNode h = some nd) (hp : nd.parent = some ph)
    (hpn : m.getNode ph = some pn) :
    m.processNode h = if nd.dirty || pn.dirty then
        m.setNode h { nd with world := pn.world * nd.compose, dirty := true } else m := by
  simp only [processNode, hn, hp, hpn]

theorem processNode_orphan {m : transform_manager_t K} {h ph : handle_t}
    {nd : transform_node_t K} (hn : m.getNode h = some nd) (hp : nd.parent = some ph)
    (hpn : m.getNode ph = none) : m.processNode h = m := by
  simp only [processNode, hn, hp, hpn]

theorem processNode_none {m : transform_manager_t K} {h : handle_t}
    (hn : m.getNode h = none) : m.processNode h = m := by
  simp only [processNode, hn]

theorem getNode_processNode_ne (m : transform_manager_t K) {h h' : handle_t} (hne : h' ≠ h) :
    (m.processNode h).getNode h' = m.getNode h' := by
  cases hn : m.getNode h with
  | none => rw [processNode_none hn]
  | some nd =>
    cases hp : nd.parent with
    | none =>
      rw [processNode_root hn hp]
      split
      · rw [getNode_setNode hn, if_neg hne]
      · rfl
    | some ph =>
      cases hpn : m.getNode ph with
      | none => rw [processNode_orphan hn hp hpn]
      | some pn =>
        rw [processNode_child hn hp hpn]
        split
        · rw [getNode_setNode hn, if_neg hne]
        · rfl

theorem Final.has_node {m : transform_manager_t K} {h : handle_t} {b : Bool} {w : Matrix44 K}
    (hf : Final m h b w) : ∃ nd, m.getNode h = some nd := by
  cases hf with
  | root h nd hn _ => exact ⟨nd, hn⟩
  | child h ph nd dp wp hn _ _ => exact ⟨nd, hn⟩

theorem Final.unique {m : transform_manager_t K} {h : handle_t} {b : Bool} {w : Matrix44 K}
    (hf : Final m h b w) : ∀ {b' : Bool} {w' : Matrix44 K}, Final m h b' w' → b = b' ∧ w = w' := by
  induction hf with
  | root h nd hn hp =>
    intro b' w' hf'
    cases hf' with
    | root _ nd' hn' hp' =>
      rw [hn] at hn'; cases hn'; exact ⟨rfl, rfl⟩
    | child _ ph nd' dp wp hn' hp' _ =>
      rw [hn] at hn'; cases hn'; rw [hp] at hp'; cases hp'
  | child h ph nd dp wp hn hp _ ih =>
    intro b' w' hf'
    cases hf' with
    | root _ nd' hn' hp' =>
      rw [hn] at hn'; cases hn'; rw [hp] at hp'; cases hp'
    | child _ ph' nd' dp' wp' hn' hp' hfp' =>
      rw [hn] at hn'; cases hn'; rw [hp] at hp'; cases hp'
      obtain ⟨rfl, rfl⟩ := ih hfp'
      exact ⟨rfl, rfl⟩

theorem Final.clean {m : transform_manager_t K} {h : handle_t} {b : Bool} {w : Matrix44 K}
    (hf : Final m h b w) (hb : b = false) :
    ∃ nd, m.getNode h = some nd ∧ nd.dirty = false ∧ w = nd.world := by
  cases hf with
  | root h nd hn _ => exact ⟨nd, hn, hb, by simp [hb]⟩
  | child h ph nd dp wp hn _ _ =>
    have hd : nd.dirty = false := by
      cases hnd : nd.dirty <;> simp [hnd] at hb ⊢
    exact ⟨nd, hn, hd, by simp [hb]⟩

theorem PassState.start (m : transform_manager_t K) : PassState m m [] where
  undone := fun _ _ => rfl
  finished := by intro h hh; simp at hh

theorem PassState.process {m m' : transform_manager_t K} {done : List handle_t}
    (hp : PassState m m' done) {h : handle_t} (hnd : h ∉ done) (hlive : (m.getNode h).isSome)
    (hpar : ∀ (nd : transform_node_t K) (ph : handle_t), m.getNode h = some nd →
      nd.parent = some ph → ph ∈ done) :
    PassState m (m'.processNode h) (h :: done) := by
  obtain ⟨nd, hn⟩ := Option.isSome_iff_exists.1 hlive
  have hn' : m'.getNode h = some nd := by rw [hp.undone h hnd]; exact hn
  constructor
  · intro h' hh'
    simp only [List.mem_cons, not_or] at hh'
    rw [getNode_processNode_ne m' hh'.1]
    exact hp.undone h' hh'.2
  · intro h' hh'
    simp only [List.mem_cons] at hh'
    by_cases heq : h' = h
    · subst heq
      refine ⟨nd, ?_⟩
      by_cases hpar' : nd.parent = none
      · refine ⟨_, _, hn, Final.root h' nd hn hpar', ?_⟩
        rw [processNode_root hn' hpar']
        by_cases hd : nd.dirty = true
        · rw [if_pos hd, getNode_setNode hn', if_pos rfl, if_pos hd, hd]
        · rw [if_neg hd, if_neg hd, hn']
      · obtain ⟨ph, hpar'⟩ := Option.ne_none_iff_exists'.1 hpar'
        obtain ⟨pn, bp, wp, hpn, hfp, hpn'⟩ := hp.finished ph (hpar nd ph hn hpar')
        refine ⟨_, _, hn, Final.child h' ph nd bp wp hn hpar' hfp, ?_⟩
        rw [processNode_child hn' hpar' hpn']
        by_cases hd : (nd.dirty || bp) = true
        · rw [if_pos hd, getNode_setNode hn', if_pos rfl, if_pos hd, hd]
        · rw [if_neg hd, if_neg hd, hn']
          have hd' : nd.dirty = false := by
            cases hnd : nd.dirty <;> simp [hnd] at hd ⊢
          have hbp : bp = false := by
            cases hbp : bp <;> simp [hbp] at hd ⊢
          rw [hbp, Bool.or_false]
    · rcases hh' with hh' | hh'
      · exact absurd hh' heq
      · obtain ⟨nd', b, w, h1, h2, h3⟩ := hp.finished h' hh'
        exact ⟨nd', b, w, h1, h2, by rw [getNode_processNode_ne m' heq]; exact h3⟩

theorem PassState.process_list {m : transform_manager_t K} (l : List handle_t) :
    ∀ (m' : transform_manager_t K) (done : List handle_t), PassState m m' done →
      TopoFrom m done l → PassState m (l.foldl processNode m') (l.reverse ++ done) := by
  induction l with
  | nil => intro m' done hp _; simpa using hp
  | cons h t ih =>
    intro m' done hp htopo
    obtain ⟨h1, h2, h3, h4⟩ := htopo
    have := ih _ _ (hp.process h1 h2 h3) h4
    simpa using this

theorem WF.rooted_lt {m : transform_manager_t K} (wf : WF m) {d : Nat} {h : handle_t}
    (hr : Rooted m d h) : d < m.slots.length := by
  obtain ⟨rank, hrank⟩ := wf.acyclic
  obtain ⟨l, hlen, hnd, hlive, _⟩ := hr.chain rank hrank
  have hnd' : (l.map handle_t.index).Nodup := by
    refine List.Nodup.map_on ?_ hnd
    intro x hx y hy hxy
    obtain ⟨nx, hnx⟩ := Option.isSome_iff_exists.1 (hlive x hx)
    obtain ⟨ny, hny⟩ := Option.isSome_iff_exists.1 (hlive y hy)
    exact handle_eq_of_live hnx hny hxy
  have hsub : l.map handle_t.index ⊆ List.range m.slots.length := by
    intro i hi
    obtain ⟨x, hx, rfl⟩ := List.mem_map.1 hi
    obtain ⟨nx, hnx⟩ := Option.isSome_iff_exists.1 (hlive x hx)
    exact List.mem_range.2 (index_lt_of_getNode hnx)
  have := (List.subperm_of_subset hnd' hsub).length_le
  rw [List.length_range, List.length_map] at this
  omega

theorem WF.rooted {m : transform_manager_t K} (wf : WF m) {h : handle_t}
    {nd : transform_node_t K} (hn : m.getNode h = some nd) : ∃ d, Rooted m d h := by
  obtain ⟨rank, hrank⟩ := wf.acyclic
  exact Rooted.exists_of_rank wf.parent_live rank hrank _ h nd (Nat.le_refl _) hn

theorem Final.of_rooted {m : transform_manager_t K} {d : Nat} {h : handle_t}
    (hr : Rooted m d h) : ∃ (b : Bool) (w : Matrix44 K), Final m h b w := by
  induction hr with
  | root h nd hn hp => exact ⟨_, _, Final.root h nd hn hp⟩
  | child d h ph nd hn hp _ ih =>
    obtain ⟨b, w, hf⟩ := ih
    exact ⟨_, _, Final.child h ph nd b w hn hp hf⟩

theorem WF.topo_order {m : transform_manager_t K} (wf : WF m) : TopoFrom m [] m.order := by
  have hall : ∀ (h : handle_t) (nd : transform_node_t K), m.getNode h = some nd → h ∈ m.order := by
    intro h nd hn
    obtain ⟨d, hd⟩ := wf.rooted hn
    have hlt := wf.rooted_lt hd
    exact mem_order.2 ⟨by simp [hn], d, hlt, (depth?_eq_some _ _ _).2 ⟨hd, hlt⟩⟩
  have := TopoFrom.of_sorted m.order (nodup_order m) (sorted_order m)
    (by
      intro h hh
      obtain ⟨_, d, _, hd⟩ := mem_order.1 hh
      exact ⟨d, ((depth?_eq_some _ _ _).1 hd).1⟩)
    (by
      intro h _ nd ph hn hp
      obtain ⟨pn, hpn⟩ := Option.isSome_iff_exists.1 (wf.parent_live h nd ph hn hp)
      exact hall ph pn hpn)
    [] m.order rfl
  simpa using this

/-- Under well-formedness, `update()` gives every node the world matrix that
`Final` describes and clears its flag; it changes nothing else. -/
theorem WF.getNode_update {m : transform_manager_t K} (wf : WF m) (h : handle_t) :
    (m.getNode h = none → m.update.getNode h = none) ∧
    (∀ nd : transform_node_t K, m.getNode h = some nd →
      ∃ (b : Bool) (w : Matrix44 K), Final m h b w ∧
        m.update.getNode h = some { nd with dirty := false, world := w }) := by
  have hp := PassState.process_list m.order m [] (PassState.start m) wf.topo_order
  constructor
  · intro hn
    unfold update
    rw [getNode_clearDirty]
    have hnot : h ∉ m.order.reverse ++ [] := by
      intro hmem
      simp only [List.append_nil, List.mem_reverse] at hmem
      have := (mem_order.1 hmem).1
      simp [hn] at this
    rw [hp.undone h hnot, hn]
    rfl
  · intro nd hn
    obtain ⟨d, hd⟩ := wf.rooted hn
    have hlt := wf.rooted_lt hd
    have hmem : h ∈ m.order.reverse ++ [] := by
      simp only [List.append_nil, List.mem_reverse]
      exact mem_order.2 ⟨by simp [hn], d, hlt, (depth?_eq_some _ _ _).2 ⟨hd, hlt⟩⟩
    obtain ⟨nd', b, w, hn', hf, hfin⟩ := hp.finished h hmem
    rw [hn] at hn'
    cases hn'
    refine ⟨b, w, hf, ?_⟩
    unfold update
    rw [getNode_clearDirty, hfin]
    rfl

theorem WF.update_inv {m : transform_manager_t K} (wf : WF m) {h : handle_t}
    {nd : transform_node_t K} (hn : m.update.getNode h = some nd) :
    ∃ (nd0 : transform_node_t K) (b : Bool) (w : Matrix44 K), m.getNode h = some nd0 ∧
      Final m h b w ∧ nd = { nd0 with dirty := false, world := w } := by
  cases hn0 : m.getNode h with
  | none =>
    rw [(wf.getNode_update h).1 hn0] at hn
    cases hn
  | some nd0 =>
    obtain ⟨b, w, hf, hu⟩ := (wf.getNode_update h).2 nd0 hn0
    rw [hu] at hn
    cases hn
    exact ⟨nd0, b, w, rfl, hf, rfl⟩

/-- After `update()` on a well-formed manager, a root holds its local matrix and
a child holds the world matrix of its parent times its local matrix. -/
theorem WF.update_world {m : transform_manager_t K} (wf : WF m) {h : handle_t}
    {nd : transform_node_t K} (hn : m.update.getNode h = some nd) :
    nd.dirty = false ∧ (nd.parent = none → nd.world = nd.compose) ∧
    (∀ ph : handle_t, nd.parent = some ph →
      ∃ pn, m.update.getNode ph = some pn ∧ nd.world = pn.world * nd.compose) := by
  obtain ⟨nd0, b, w, hn0, hf, rfl⟩ := wf.update_inv hn
  refine ⟨rfl, ?_, ?_⟩
  · intro hp
    change nd0.parent = none at hp
    change w = nd0.compose
    cases hf with
    | root _ nd1 hn1 hp1 =>
      rw [hn0] at hn1
      cases hn1
      by_cases hd : nd0.dirty = true
      · rw [if_pos hd]
      · rw [if_neg hd]
        exact ((wf.coherent h nd0 hn0 (by simpa using hd)).1 hp)
    | child _ ph nd1 dp wp hn1 hp1 _ =>
      rw [hn0] at hn1
      cases hn1
      rw [hp] at hp1
      cases hp1
  · intro ph hp
    change nd0.parent = some ph at hp
    obtain ⟨pn0, hpn0⟩ := Option.isSome_iff_exists.1 (wf.parent_live h nd0 ph hn0 hp)
    obtain ⟨bp, wp', hfp, hup⟩ := (wf.getNode_update ph).2 pn0 hpn0
    refine ⟨_, hup, ?_⟩
    change w = wp' * nd0.compose
    cases hf with
    | root _ nd1 hn1 hp1 =>
      rw [hn0] at hn1
      cases hn1
      rw [hp] at hp1
      cases hp1
    | child _ ph1 nd1 dp wp hn1 hp1 hfp1 =>
      rw [hn0] at hn1
      cases hn1
      rw [hp] at hp1
      cases hp1
      obtain ⟨rfl, rfl⟩ := hfp.unique hfp1
      by_cases hd : (nd0.dirty || bp) = true
      · rw [if_pos hd]
      · rw [if_neg hd]
        have hd' : nd0.dirty = false := by
          cases hnd : nd0.dirty <;> simp [hnd] at hd ⊢
        have hbp : bp = false := by
          cases hbp : bp <;> simp [hbp] at hd ⊢
        obtain ⟨pn1, hpn1, hpd, hw⟩ := hfp.clean hbp
        rw [hpn0] at hpn1
        cases hpn1
        rw [hw]
        exact (wf.coherent h nd0 hn0 hd').2 ph pn0 hp hpn0 hpd

theorem WF.after_update {m : transform_manager_t K} (wf : WF m) : WF m.update where
  parent_live := by
    intro h nd ph hn hp
    obtain ⟨pn, hpn, _⟩ := (wf.update_world hn).2.2 ph hp
    simp [hpn]
  acyclic := by
    obtain ⟨rank, hrank⟩ := wf.acyclic
    refine ⟨rank, ?_⟩
    intro h nd ph hn hp
    obtain ⟨nd0, b, w, hn0, _, rfl⟩ := wf.update_inv hn
    exact hrank h nd0 ph hn0 hp
  coherent := by
    intro h nd hn _
    refine ⟨(wf.update_world hn).2.1, ?_⟩
    intro ph pn hp hpn _
    obtain ⟨pn', hpn', hw⟩ := (wf.update_world hn).2.2 ph hp
    rw [hpn] at hpn'
    cases hpn'
    exact hw

theorem WF.of_empty : WF (transform_manager_t.empty : transform_manager_t K) where
  parent_live := by intro h nd ph hn; simp [getNode, transform_manager_t.empty] at hn
  acyclic := ⟨fun _ => 0, by intro h nd ph hn; simp [getNode, transform_manager_t.empty] at hn⟩
  coherent := by intro h nd hn; simp [getNode, transform_manager_t.empty] at hn

theorem getNode_createTransform (m : transform_manager_t K) (t s : Vector3 K)
    (q : maths.Quaternion K) (h : handle_t) :
    (m.createTransform t s q).1.getNode h =
      if h = ⟨m.slots.length, 0⟩ then
        some { translation := t, scale := s, rotation := q, parent := none
               world := maths.createTransform t s q, dirty := true }
      else m.getNode h := by
  unfold createTransform getNode
  dsimp only
  by_cases hlt : h.index < m.slots.length
  · have hne : ¬ h = ⟨m.slots.length, 0⟩ := by
      intro heq
      rw [heq] at hlt
      exact Nat.lt_irrefl _ hlt
    rw [if_neg hne, List.getElem?_append_left hlt]
  · by_cases heq : h.index = m.slots.length
    · rw [heq, List.getElem?_concat_length, List.getElem?_eq_none (Nat.le_refl _)]
      by_cases hg : h.generation = 0
      · have : h = ⟨m.slots.length, 0⟩ := by
          cases h
          simp at heq hg ⊢
          exact ⟨heq, hg⟩
        rw [if_pos this]
        simp [hg]
      · have : ¬ h = ⟨m.slots.length, 0⟩ := by
          intro hh
          rw [hh] at hg
          exact hg rfl
        rw [if_neg this]
        have hg' : ¬ (0 = h.generation) := fun e => hg e.symm
        simp [hg']
    · have hne : ¬ h = ⟨m.slots.length, 0⟩ := by
        intro hh
        rw [hh] at heq
        exact heq rfl
      rw [if_neg hne, List.getElem?_eq_none (by simp; omega), List.getElem?_eq_none (by omega)]

theorem WF.after_createTransform {m : transform_manager_t K} (wf : WF m) (t s : Vector3 K)
    (q : maths.Quaternion K) : WF (m.createTransform t s q).1 := by
  have hold : ∀ (h : handle_t) (nd : transform_node_t K), m.getNode h = some nd →
      (m.createTransform t s q).1.getNode h = some nd := by
    intro h nd hn
    rw [getNode_createTransform, if_neg]
    · exact hn
    · intro heq
      have := index_lt_of_getNode hn
      rw [heq] at this
      exact Nat.lt_irrefl _ this
  have hcases : ∀ (h : handle_t) (nd : transform_node_t K),
      (m.createTransform t s q).1.getNode h = some nd →
      m.getNode h = some nd ∨ (nd.parent = none ∧ nd.dirty = true) := by
    intro h nd hn
    rw [getNode_createTransform] at hn
    split at hn
    · cases hn
      exact Or.inr ⟨rfl, rfl⟩
    · exact Or.inl hn
  constructor
  · intro h nd ph hn hp
    rcases hcases h nd hn with hn0 | ⟨hp0, _⟩
    · obtain ⟨pn, hpn⟩ := Option.isSome_iff_exists.1 (wf.parent_live h nd ph hn0 hp)
      simp [hold ph pn hpn]
    · rw [hp0] at hp
      cases hp
  · obtain ⟨rank, hrank⟩ := wf.acyclic
    refine ⟨rank, ?_⟩
    intro h nd ph hn hp
    rcases hcases h nd hn with hn0 | ⟨hp0, _⟩
    · exact hrank h nd ph hn0 hp
    · rw [hp0] at hp
      cases hp
  · intro h nd hn hd
    rcases hcases h nd hn with hn0 | ⟨_, hd0⟩
    · refine ⟨(wf.coherent h nd hn0 hd).1, ?_⟩
      intro ph pn hp hpn hpd
      obtain ⟨pn0, hpn0⟩ := Option.isSome_iff_exists.1 (wf.parent_live h nd ph hn0 hp)
      have := hold ph pn0 hpn0
      rw [hpn] at this
      cases this
      exact (wf.coherent h nd hn0 hd).2 ph pn hp hpn0 hpd
    · rw [hd0] at hd
      cases hd

theorem WF.after_setNode {m : transform_manager_t K} (wf : WF m) {h : handle_t}
    {nd0 : transform_node_t K} (hn : m.getNode h = some nd0) (nd' : transform_node_t K)
    (hd : nd'.dirty = true)
    (hpar : nd'.parent = nd0.parent ∨
      ∃ p, nd'.parent = some p ∧ (m.getNode p).isSome ∧ ¬ SelfOrDescendant m p h) :
    WF (m.setNode h nd') := by
  have hget : ∀ x : handle_t, (m.setNode h nd').getNode x =
      if x = h then some nd' else m.getNode x := getNode_setNode hn nd'
  have hlive : ∀ y : handle_t, (m.getNode y).isSome → ((m.setNode h nd').getNode y).isSome := by
    intro y hy
    rw [hget]
    split
    · rfl
    · exact hy
  constructor
  · intro x nd ph hx hp
    rw [hget] at hx
    split at hx
    · cases hx
      rcases hpar with hpar | ⟨p, hpp, hpl, _⟩
      · exact hlive ph (wf.parent_live h nd0 ph hn (hpar ▸ hp))
      · rw [hpp] at hp
        cases hp
        exact hlive ph hpl
    · exact hlive ph (wf.parent_live x nd ph hx hp)
  · obtain ⟨rank, hrank⟩ := wf.acyclic
    rcases hpar with hpar | ⟨p, hpp, hpl, hnsd⟩
    · refine ⟨rank, ?_⟩
      intro x nd ph hx hp
      rw [hget] at hx
      split at hx
      · rename_i hxh
        cases hx
        rw [hxh]
        exact hrank h nd0 ph hn (hpar ▸ hp)
      · exact hrank x nd ph hx hp
    · classical
      refine ⟨fun x => if SelfOrDescendant m x h then rank x + rank p + 1 else rank x, ?_⟩
      intro x nd ph hx hp
      rw [hget] at hx
      split at hx
      · rename_i hxh
        cases hx
        rw [hpp] at hp
        cases hp
        rw [hxh]
        have hself : SelfOrDescendant m h h := SelfOrDescendant.self h (by simp [hn])
        simp only [hself, hnsd, if_true, if_false]
        omega
      · have hlt := hrank x nd ph hx hp
        by_cases hsd : SelfOrDescendant m ph h
        · have hsdx : SelfOrDescendant m x h :=
            SelfOrDescendant.step x ph h (getParent_eq_some.2 ⟨nd, hx, hp⟩) hsd
          simp only [hsd, hsdx, if_true]
          omega
        · simp only [hsd, if_false]
          split <;> omega
  · intro x nd hx hclean
    rw [hget] at hx
    split at hx
    · cases hx
      rw [hd] at hclean
      cases hclean
    · refine ⟨(wf.coherent x nd hx hclean).1, ?_⟩
      intro ph pn hp hpn hpclean
      rw [hget] at hpn
      split at hpn
      · cases hpn
        rw [hd] at hpclean
        cases hpclean
      · exact (wf.coherent x nd hx hclean).2 ph pn hp hpn hpclean

theorem WF.after_setLocalTranslation {m : transform_manager_t K} (wf : WF m) (h : handle_t)
    (v : Vector3 K) : WF (m.setLocalTranslation h v).2 := by
  unfold transform_manager_t.setLocalTranslation
  cases hn : m.getNode h with
  | none => exact wf
  | some nd => exact wf.after_setNode hn _ rfl (Or.inl rfl)

theorem WF.after_setLocalScale {m : transform_manager_t K} (wf : WF m) (h : handle_t)
    (v : Vector3 K) : WF (m.setLocalScale h v).2 := by
  unfold transform_manager_t.setLocalScale
  cases hn : m.getNode h with
  | none => exact wf
  | some nd => exact wf.after_setNode hn _ rfl (Or.inl rfl)

theorem WF.after_setLocalRotation {m : transform_manager_t K} (wf : WF m) (h : handle_t)
    (v : maths.Quaternion K) : WF (m.setLocalRotation h v).2 := by
  unfold transform_manager_t.setLocalRotation
  cases hn : m.getNode h with
  | none => exact wf
  | some nd => exact wf.after_setNode hn _ rfl (Or.inl rfl)

theorem WF.after_setParent {m : transform_manager_t K} (wf : WF m) (c p : handle_t) :
    WF (m.setParent c p).2 := by
  unfold transform_manager_t.setParent
  cases hc : m.getNode c with
  | none => exact wf
  | some cn =>
    cases hp : m.getNode p with
    | none => exact wf
    | some pn =>
      dsimp only
      cases hcyc : m.isSelfOrDescendant m.slots.length p c with
      | true => exact wf
      | false =>
        simp only [Bool.false_eq_true, if_false]
        exact wf.after_setNode hc _ rfl
          (Or.inr ⟨p, rfl, by simp [hp], isSelfOrDescendant_sound _ p c hcyc⟩)

theorem WF.after_destroyTransform {m : transform_manager_t K} (wf : WF m) (h : handle_t) :
    WF (m.destroyTransform h).2 := by
  cases hn : m.getNode h with
  | none =>
    simp only [transform_manager_t.destroyTransform, hn]
    exact wf
  | some nd0 =>
    have hget := getNode_destroyTransform hn
    have hinv : ∀ (x : handle_t) (nd : transform_node_t K),
        (m.destroyTransform h).2.getNode x = some nd →
        x ≠ h ∧ ∃ nd1, m.getNode x = some nd1 ∧
          ((nd1.parent ≠ some h ∧ nd = nd1) ∨ (nd.parent = none ∧ nd.dirty = true)) := by
      intro x nd hx
      rw [hget] at hx
      split at hx
      · cases hx
      · rename_i hxh
        refine ⟨hxh, ?_⟩
        cases hx1 : m.getNode x with
        | none => rw [hx1] at hx; cases hx
        | some nd1 =>
          rw [hx1] at hx
          simp only [Option.map_some', Option.some.injEq] at hx
          refine ⟨nd1, rfl, ?_⟩
          by_cases hp : nd1.parent = some h
          · rw [if_pos hp] at hx
            rw [← hx]
            exact Or.inr ⟨rfl, rfl⟩
          · rw [if_neg hp] at hx
            exact Or.inl ⟨hp, hx.symm⟩
    have hkeep : ∀ (x : handle_t) (nd : transform_node_t K), x ≠ h → m.getNode x = some nd →
        nd.parent ≠ some h → (m.destroyTransform h).2.getNode x = some nd := by
      intro x nd hxh hx hp
      rw [hget, if_neg hxh, hx]
      simp [hp]
    constructor
    · intro x nd ph hx hp
      obtain ⟨hxh, nd1, hx1, hcase⟩ := hinv x nd hx
      rcases hcase with ⟨hp1, rfl⟩ | ⟨hp0, _⟩
      · obtain ⟨pn, hpn⟩ := Option.isSome_iff_exists.1 (wf.parent_live x nd ph hx1 hp)
        have hphh : ph ≠ h := by
          intro heq
          rw [heq] at hp
          exact hp1 hp
        rw [hget, if_neg hphh, hpn]
        simp
      · rw [hp0] at hp
        cases hp
    · obtain ⟨rank, hrank⟩ := wf.acyclic
      refine ⟨rank, ?_⟩
      intro x nd ph hx hp
      obtain ⟨hxh, nd1, hx1, hcase⟩ := hinv x nd hx
      rcases hcase with ⟨hp1, rfl⟩ | ⟨hp0, _⟩
      · exact hrank x nd ph hx1 hp
      · rw [hp0] at hp
        cases hp
    · intro x nd hx hclean
      obtain ⟨hxh, nd1, hx1, hcase⟩ := hinv x nd hx
      rcases hcase with ⟨hp1, rfl⟩ | ⟨_, hd⟩
      · refine ⟨(wf.coherent x nd hx1 hclean).1, ?_⟩
        intro ph pn hp hpn hpclean
        obtain ⟨_, pn1, hpn1, hpcase⟩ := hinv ph pn hpn
        rcases hpcase with ⟨_, rfl⟩ | ⟨_, hpd⟩
        · exact (wf.coherent x nd hx1 hclean).2 ph pn hp hpn1 hpclean
        · rw [hpd] at hpclean
          cases hpclean
      · rw [hd] at hclean
        cases hclean

theorem WF.after_op {m : transform_manager_t K} (wf : WF m) (op : transform_op K) :
    WF (m.step op) := by
  cases op with
  | createTransform t s q => exact wf.after_createTransform t s q
  | setParent c p => exact wf.after_setParent c p
  | setLocalTranslation h v => exact wf.after_setLocalTranslation h v
  | setLocalScale h v => exact wf.after_setLocalScale h v
  | setLocalRotation h q => exact wf.after_setLocalRotation h q
  | update => exact wf.after_update
  | destroyTransform h => exact wf.after_destroyTransform h

theorem WF.after_op_list (ops : List (transform_op K)) :
    ∀ m : transform_manager_t K, WF m → WF (ops.foldl transform_manager_t.step m) := by
  induction ops with
  | nil => intro m wf; exact wf
  | cons op ops ih => intro m wf; exact ih _ (wf.after_op op)

theorem WF.of_manager_run (ops : List (transform_op K)) : WF (transform_manager_t.run ops) :=
  WF.after_op_list ops _ WF.of_empty

theorem processNode_clean {m : transform_manager_t K}
    (hclean : ∀ (h : handle_t) (nd : transform_node_t K), m.getNode h = some nd →
      nd.dirty = false) (h : handle_t) : m.processNode h = m := by
  cases hn : m.getNode h with
  | none => exact processNode_none hn
  | some nd =>
    have hd := hclean h nd hn
    cases hp : nd.parent with
    | none =>
      rw [processNode_root hn hp, hd]
      rfl
    | some ph =>
      cases hpn : m.getNode ph with
      | none => exact processNode_orphan hn hp hpn
      | some pn =>
        rw [processNode_child hn hp hpn, hd, hclean ph pn hpn]
        rfl

theorem foldl_processNode_clean {m : transform_manager_t K}
    (hclean : ∀ (h : handle_t) (nd : transform_node_t K), m.getNode h = some nd →
      nd.dirty = false) (l : List handle_t) : l.foldl processNode m = m := by
  induction l with
  | nil => rfl
  | cons h t ih => rw [List.foldl_cons, processNode_clean hclean h, ih]

/-- C4: after `update()` on any manager built through the interface (its forest
has no cycle, since `setParent` rejects them), the world matrix of a node with a
parent is the world matrix of the parent times the composed local matrix of the
node, and the world matrix of a root is its composed local matrix. -/
theorem update_world_matrix (ops : List (transform_op K)) (h : handle_t)
    (nd : transform_node_t K) (hn : (run ops).update.getNode h = some nd) :
    (run ops).update.getWorldMatrix h = some nd.world
      ∧ (nd.parent = none → nd.world = nd.compose)
      ∧ (∀ ph : handle_t, nd.parent = some ph →
          ∃ pw, (run ops).update.getWorldMatrix ph = some pw ∧ nd.world = pw * nd.compose) := by
  have hw := (WF.of_manager_run ops).update_world hn
  refine ⟨by simp [getWorldMatrix, hn], hw.2.1, ?_⟩
  intro ph hp
  obtain ⟨pn, hpn, hpw⟩ := hw.2.2 ph hp
  exact ⟨pn.world, by simp [getWorldMatrix, hpn], hpw⟩

/-- C6: `update()` is idempotent: a second call in a row leaves the manager, and
so every world matrix, as the first call left it. -/
theorem update_idempotent (m : transform_manager_t K) :
    m.update.update = m.update
      ∧ ∀ h : handle_t, m.update.update.getWorldMatrix h = m.update.getWorldMatrix h := by
  have hclean : ∀ (h : handle_t) (nd : transform_node_t K), m.update.getNode h = some nd →
      nd.dirty = false := by
    intro h nd hn
    unfold update at hn
    rw [getNode_clearDirty] at hn
    cases hx : ((m.order).foldl processNode m).getNode h with
    | none => rw [hx] at hn; cases hn
    | some nd0 =>
      rw [hx] at hn
      cases hn
      rfl
  have key : m.update.update = m.update := by
    have hdef : ∀ x : transform_manager_t K,
        x.update = ((x.order).foldl processNode x).clearDirty := fun _ => rfl
    rw [hdef m.update, foldl_processNode_clean hclean, hdef m]
    exact clearDirty_clearDirty _
  exact ⟨key, fun h => by rw [key]⟩

end transform

/-- Witness for C4: a child at `(1,0,0)` under a root moved to `(5,0,0)`. -/
theorem update_world_matrix_witness :
    (run [transform_op.createTransform ⟨0, 0, 0⟩ VEC3_ONE QUAT_UNIT,
          .createTransform ⟨1, 0, 0⟩ VEC3_ONE QUAT_UNIT, .setParent ⟨1, 0⟩ ⟨0, 0⟩, .update,
          .setLocalTranslation ⟨0, 0⟩ ⟨5, 0, 0⟩] : transform_manager_t ℚ).update.getNode ⟨1, 0⟩
        = some { translation := ⟨1, 0, 0⟩, scale := VEC3_ONE, rotation := QUAT_UNIT
                 parent := some ⟨0, 0⟩
                 world := maths.createTransform ⟨5, 0, 0⟩ VEC3_ONE QUAT_UNIT
                   * maths.createTransform ⟨1, 0, 0⟩ VEC3_ONE QUAT_UNIT
                 dirty := false }
      ∧ (run [transform_op.createTransform ⟨0, 0, 0⟩ VEC3_ONE QUAT_UNIT,
          .createTransform ⟨1, 0, 0⟩ VEC3_ONE QUAT_UNIT, .setParent ⟨1, 0⟩ ⟨0, 0⟩, .update,
          .setLocalTranslation ⟨0, 0⟩ ⟨5, 0, 0⟩] : transform_manager_t ℚ).update.getWorldMatrix
            ⟨1, 0⟩
        = some (maths.createTransform ⟨5, 0, 0⟩ VEC3_ONE QUAT_UNIT
                   * maths.createTransform ⟨1, 0, 0⟩ VEC3_ONE QUAT_UNIT) :=
  have hn : (run [transform_op.createTransform ⟨0, 0, 0⟩ VEC3_ONE QUAT_UNIT,
          .createTransform ⟨1, 0, 0⟩ VEC3_ONE QUAT_UNIT, .setParent ⟨1, 0⟩ ⟨0, 0⟩, .update,
          .setLocalTranslation ⟨0, 0⟩ ⟨5, 0, 0⟩] : transform_manager_t ℚ).update.getNode ⟨1, 0⟩
        = some { translation := ⟨1, 0, 0⟩, scale := VEC3_ONE, rotation := QUAT_UNIT
                 parent := some ⟨0, 0⟩
                 world := maths.createTransform ⟨5, 0, 0⟩ VEC3_ONE QUAT_UNIT
                   * maths.createTransform ⟨1, 0, 0⟩ VEC3_ONE QUAT_UNIT
                 dirty := false } := rfl
  ⟨hn, (update_world_matrix _ ⟨1, 0⟩ _ hn).1⟩

/-- Witness for C5: node 1 is a child of node 0, so node 0 cannot take node 1 as
its parent. -/
theorem setParent_cycle_witness :
    SelfOrDescendant (run [transform_op.createTransform ⟨0, 0, 0⟩ VEC3_ONE QUAT_UNIT,
        .createTransform ⟨1, 0, 0⟩ VEC3_ONE QUAT_UNIT, .setParent ⟨1, 0⟩ ⟨0, 0⟩] :
        transform_manager_t ℚ) ⟨1, 0⟩ ⟨0, 0⟩
      ∧ (run [transform_op.createTransform ⟨0, 0, 0⟩ VEC3_ONE QUAT_UNIT,
        .createTransform ⟨1, 0, 0⟩ VEC3_ONE QUAT_UNIT, .setParent ⟨1, 0⟩ ⟨0, 0⟩] :
        transform_manager_t ℚ).setParent ⟨0, 0⟩ ⟨1, 0⟩
        = (transform_result.cycleError,
            run [transform_op.createTransform ⟨0, 0, 0⟩ VEC3_ONE QUAT_UNIT,
              .createTransform ⟨1, 0, 0⟩ VEC3_ONE QUAT_UNIT, .setParent ⟨1, 0⟩ ⟨0, 0⟩]) :=
  have hdesc : SelfOrDescendant (run [transform_op.createTransform ⟨0, 0, 0⟩ VEC3_ONE QUAT_UNIT,
        .createTransform ⟨1, 0, 0⟩ VEC3_ONE QUAT_UNIT, .setParent ⟨1, 0⟩ ⟨0, 0⟩] :
        transform_manager_t ℚ) ⟨1, 0⟩ ⟨0, 0⟩ :=
    SelfOrDescendant.step ⟨1, 0⟩ ⟨0, 0⟩ ⟨0, 0⟩ rfl (SelfOrDescendant.self ⟨0, 0⟩ rfl)
  ⟨hdesc, (setParent_cycle _ ⟨0, 0⟩ ⟨1, 0⟩ hdesc).1⟩

end transform_manager_t
end bkk

/-! ## Theorems: `maths.h`, vectors, quaternions and inverse transforms -/

namespace bkk
namespace maths

open Matrix44

section vectors
variable {K : Type} {N : Nat}

theorem Vector.foldl_set_data (f : Fin N → K) (l : List (Fin N)) :
    ∀ (init : Vector K N) (k : Fin N),
      (l.foldl (fun result i => result.set i (f i)) init).data k
        = if k ∈ l then f k else init.data k := by
  induction l with
  | nil => intro init k; simp
  | cons a l ih =>
    intro init k
    rw [List.foldl_cons, ih]
    by_cases hk : k ∈ l
    · simp [hk]
    · by_cases hka : k = a
      · simp [hk, hka, Vector.set]
      · simp [hk, hka, Vector.set]

theorem Vector.foldl_set_finRange (f : Fin N → K) (init : Vector K N) :
    (List.finRange N).foldl (fun result i => result.set i (f i)) init = ⟨f⟩ := by
  ext k
  rw [Vector.foldl_set_data]
  simp [List.mem_finRange]

theorem Vector.sub_data [Zero K] [Sub K] (v0 v1 : Vector K N) (k : Fin N) :
    (v0 - v1).data k = v0.data k - v1.data k := by
  show (Vector.sub v0 v1).data k = _
  unfold Vector.sub
  rw [Vector.foldl_set_finRange]

theorem Vector.smul_data [Zero K] [Mul K] (a : K) (v0 : Vector K N) (k : Fin N) :
    (Vector.smul a v0).data k = v0.data k * a := by
  unfold Vector.smul
  rw [Vector.foldl_set_finRange]

theorem foldl_add_finRange [AddCommMonoid K] (g : Fin N → K) :
    (List.finRange N).foldl (fun result i => result + g i) 0 = ∑ i, g i := by
  rw [Fin.sum_univ_def, List.sum_eq_foldl, List.foldl_map]

theorem dot_eq_sum [CommRing K] (v0 v1 : Vector K N) :
    dot v0 v1 = ∑ i, v0.data i * v1.data i := by
  unfold dot
  exact foldl_add_finRange _

theorem lengthSquared_eq_sum [CommRing K] (v : Vector K N) :
    lengthSquared v = ∑ i, v.data i * v.data i := by
  unfold lengthSquared
  exact foldl_add_finRange _

/-- C17: the cross product of two 3-component vectors is orthogonal to both, for
the library's `dot` over any commutative ring. -/
theorem cross_orthogonal [CommRing K] (a b : Vector3 K) :
    dot (cross a b).toVector a.toVector = 0 ∧ dot (cross a b).toVector b.toVector = 0 := by
  constructor
  · rw [dot_eq_sum, Fin.sum_univ_three]
    simp [Vector3.toVector, cross]
    ring
  · rw [dot_eq_sum, Fin.sum_univ_three]
    simp [Vector3.toVector, cross]
    ring

theorem dot_sub_smul [CommRing K] (v n : Vector K N) (c : K) :
    dot (v - Vector.smul c n) n = dot v n - c * dot n n := by
  simp only [dot_eq_sum, Vector.sub_data, Vector.smul_data, sub_mul, Finset.sum_sub_distrib,
    Finset.mul_sum]
  congr 1
  apply Finset.sum_congr rfl
  intro i _
  ring

theorem dot_reflect [CommRing K] (v n : Vector K N) (hn : dot n n = 1) :
    dot (reflect v n) n = - dot v n := by
  rw [reflect, dot_sub_smul, hn]
  ring

/-- C18: for a normal `n` with `dot(n, n) = 1`, reflecting twice gives the vector
back, in any dimension and over any commutative ring. -/
theorem reflect_reflect [CommRing K] (v n : Vector K N) (hn : dot n n = 1) :
    reflect (reflect v n) n = v := by
  ext k
  have h := dot_reflect v n hn
  rw [reflect, Vector.sub_data, Vector.smul_data, h, reflect, Vector.sub_data, Vector.smul_data]
  ring

/-- Witness for C18: the reflection of `(3, 4)` in the normal `(1, 0)`. -/
theorem reflect_reflect_witness :
    dot (⟨![1, 0]⟩ : Vector ℚ 2) ⟨![1, 0]⟩ = 1
      ∧ reflect (reflect (⟨![3, 4]⟩ : Vector ℚ 2) ⟨![1, 0]⟩) ⟨![1, 0]⟩ = ⟨![3, 4]⟩ :=
  have hn : dot (⟨![1, 0]⟩ : Vector ℚ 2) ⟨![1, 0]⟩ = 1 := by
    rw [dot_eq_sum, Fin.sum_univ_two]; simp
  ⟨hn, reflect_reflect _ _ hn⟩

end vectors

section quaternions
variable {K : Type}

theorem Quaternion.mul_x [CommRing K] (v0 v1 : Quaternion K) :
    (v0 * v1).x = v1.y * v0.z - v1.z * v0.y + v1.w * v0.x + v1.x * v0.w := rfl

theorem Quaternion.mul_y [CommRing K] (v0 v1 : Quaternion K) :
    (v0 * v1).y = v1.z * v0.x - v1.x * v0.z + v1.w * v0.y + v1.y * v0.w := rfl

theorem Quaternion.mul_z [CommRing K] (v0 v1 : Quaternion K) :
    (v0 * v1).z = v1.x * v0.y - v1.y * v0.x + v1.w * v0.z + v1.z * v0.w := rfl

theorem Quaternion.mul_w [CommRing K] (v0 v1 : Quaternion K) :
    (v0 * v1).w = v1.w * v0.w - v1.x * v0.x - v1.y * v0.y - v1.z * v0.z := rfl

end quaternions

section reals
variable {N : Nat}

theorem lengthSquared_nonneg (v : Vector ℝ N) : 0 ≤ lengthSquared v := by
  rw [lengthSquared_eq_sum]
  exact Finset.sum_nonneg fun i _ => mul_self_nonneg _

theorem lengthSquared_eq_zero_iff (v : Vector ℝ N) : lengthSquared v = 0 ↔ v = Vector.zero := by
  rw [lengthSquared_eq_sum, Finset.sum_eq_zero_iff_of_nonneg (fun i _ => mul_self_nonneg _)]
  constructor
  · intro h
    ext i
    have := h i (Finset.mem_univ i)
    simpa [Vector.zero] using this
  · intro h i _
    rw [h]
    simp [Vector.zero]

theorem length_ne_zero_iff (v : Vector ℝ N) : length Real.sqrt v ≠ 0 ↔ v ≠ Vector.zero := by
  unfold length
  rw [Ne, Real.sqrt_eq_zero (lengthSquared_nonneg v), lengthSquared_eq_zero_iff]

theorem normalize_data_of_ne (v : Vector ℝ N) (hl : length Real.sqrt v ≠ 0) (i : Fin N) :
    (normalize Real.sqrt v).data i = v.data i * (1 / length Real.sqrt v) := by
  unfold normalize
  simp only [hl, ne_eq, not_false_eq_true, if_true]
  rw [Vector.foldl_set_finRange]

/-- C19: the free function `normalize(v)` never divides by zero (its checked
variant always succeeds and agrees with it); it sends the zero vector to the zero
vector and, over the reals, a nonzero `v` to `v` divided by its length, which has
length 1. -/
theorem normalize_safe (v : Vector ℝ N) :
    normalizeChecked Real.sqrt v = some (normalize Real.sqrt v)
      ∧ normalize Real.sqrt (Vector.zero : Vector ℝ N) = Vector.zero
      ∧ (v ≠ Vector.zero →
          length Real.sqrt v ≠ 0
            ∧ (∀ i : Fin N, (normalize Real.sqrt v).data i = v.data i / length Real.sqrt v)
            ∧ length Real.sqrt (normalize Real.sqrt v) = 1) := by
  refine ⟨?_, ?_, ?_⟩
  · unfold normalizeChecked normalize checkedDiv
    by_cases hl : length Real.sqrt v = 0
    · simp [hl]
    · simp [hl]
  · have hz : ¬ (length Real.sqrt (Vector.zero : Vector ℝ N) ≠ 0) := by
      rw [length_ne_zero_iff]
      simp
    unfold normalize
    simp only [hz, if_false]
  · intro hv
    have hl := (length_ne_zero_iff v).2 hv
    have hdata : ∀ i : Fin N,
        (normalize Real.sqrt v).data i = v.data i / length Real.sqrt v := by
      intro i
      rw [normalize_data_of_ne v hl i, mul_one_div]
    refine ⟨hl, hdata, ?_⟩
    have hsq : length Real.sqrt v * length Real.sqrt v = lengthSquared v := by
      unfold length
      exact Real.mul_self_sqrt (lengthSquared_nonneg v)
    have hone : lengthSquared (normalize Real.sqrt v) = 1 := by
      rw [lengthSquared_eq_sum]
      have : ∀ i : Fin N, (normalize Real.sqrt v).data i * (normalize Real.sqrt v).data i
          = (v.data i * v.data i) * (1 / (length Real.sqrt v * length Real.sqrt v)) := by
        intro i
        rw [hdata i]
        field_simp
      simp only [this]
      rw [← Finset.sum_mul, ← lengthSquared_eq_sum, hsq]
      have hne : lengthSquared v ≠ 0 := by
        rw [Ne, lengthSquared_eq_zero_iff]
        exact hv
      field_simp
    unfold length
    rw [hone, Real.sqrt_one]

/-- Witness for C19: the vector `(3, 4)`, whose first component is not zero. -/
theorem normalize_safe_witness :
    (⟨![3, 4]⟩ : Vector ℝ 2) ≠ Vector.zero
      ∧ length Real.sqrt (normalize Real.sqrt (⟨![3, 4]⟩ : Vector ℝ 2)) = 1 :=
  have hv : (⟨![3, 4]⟩ : Vector ℝ 2) ≠ Vector.zero := by
    intro h
    have := congrArg (fun w : Vector ℝ 2 => w.data 0) h
    simp [Vector.zero] at this
  ⟨hv, ((normalize_safe _).2.2 hv).2.2⟩

/-- C15: the quaternion of `quaternionFromAxisAngle` for the axis `(0,0,1)` and
the angle `a` rotates `(1,0,0)` to `(cos a, sin a, 0)`, counter-clockwise. -/
theorem rotate_axis_angle_z (a : ℝ) :
    rotate ⟨1, 0, 0⟩ (quaternionFromAxisAngle Real.sqrt Real.sin Real.cos ⟨0, 0, 1⟩ a)
      = ⟨Real.cos a, Real.sin a, 0⟩ := by
  have hlen : length Real.sqrt (Vector3.toVector (⟨0, 0, 1⟩ : Vector3 ℝ)) = 1 := by
    unfold length
    rw [lengthSquared_eq_sum, Fin.sum_univ_three]
    simp [Vector3.toVector]
  have ha : a = -(2 * (-a * (1 / 2))) := by ring
  have hcos : Real.cos a = 2 * Real.cos (-a * (1 / 2)) ^ 2 - 1 := by
    conv_lhs => rw [ha]
    rw [Real.cos_neg, Real.cos_two_mul]
  have hsin : Real.sin a = -(2 * Real.sin (-a * (1 / 2)) * Real.cos (-a * (1 / 2))) := by
    conv_lhs => rw [ha]
    rw [Real.sin_neg, Real.sin_two_mul]
  have hsc := Real.sin_sq_add_cos_sq (-a * (1 / 2))
  rw [hcos, hsin]
  simp only [rotate, quaternionFromAxisAngle, Quaternion.ofAxisAngle, Vector3.normalize, hlen,
    conjugate, Quaternion.mul_x, Quaternion.mul_y, Quaternion.mul_z, Quaternion.mul_w,
    Vector3.mk.injEq]
  refine ⟨?_, ?_, ?_⟩
  · linear_combination (-1 : ℝ) * hsc
  · ring
  · ring

end reals

section more
variable {K : Type}

theorem invertMatrix_fst [Field K] [DecidableEq K] (m result : Matrix44 K) :
    (invertMatrix m result).1 = true ↔
      invertMatrixDeterminant m (invertMatrixCofactors m result) ≠ 0 := by
  unfold invertMatrix
  by_cases h : invertMatrixDeterminant m (invertMatrixCofactors m result) = 0
  · simp [h]
  · simp [h]

/-- C11: the value `invertMatrix` tests, `m[0]*c[0] + m[1]*c[4] + m[2]*c[8] +
m[3]*c[12]` over the cofactors `c` it has just written, is the determinant of `m`;
the function returns true iff it is nonzero, so it returns false exactly when `m`
is singular. -/
theorem invertMatrix_false_iff_singular [Field K] [DecidableEq K] (m result : Matrix44 K) :
    m.get 0 * (invertMatrixCofactors m result).get 0
        + m.get 1 * (invertMatrixCofactors m result).get 4
        + m.get 2 * (invertMatrixCofactors m result).get 8
        + m.get 3 * (invertMatrixCofactors m result).get 12 = m.toMatrix.det
      ∧ ((invertMatrix m result).1 = true ↔ m.toMatrix.det ≠ 0)
      ∧ ((invertMatrix m result).1 = false ↔ m.toMatrix.det = 0)
      ∧ ((invertMatrix m result).1 = false ↔ ¬ IsUnit m.toMatrix) := by
  have hdet := invertMatrixDeterminant_eq_det m result
  have htrue : (invertMatrix m result).1 = true ↔ m.toMatrix.det ≠ 0 := by
    rw [invertMatrix_fst, hdet]
  have hfalse : (invertMatrix m result).1 = false ↔ m.toMatrix.det = 0 := by
    rw [← Bool.not_eq_true, htrue, not_not]
  refine ⟨hdet, htrue, hfalse, ?_⟩
  rw [hfalse, Matrix.isUnit_iff_isUnit_det, isUnit_iff_ne_zero, not_not]

theorem invertTransform_eq [CommRing K] (m : Matrix44 K) :
    invertTransform m = ofEntries
      (m.data 0) (m.data 4) (m.data 8) 0
      (m.data 1) (m.data 5) (m.data 9) 0
      (m.data 2) (m.data 6) (m.data 10) 0
      (-((m.data 0 * m.data 12) + (m.data 1 * m.data 13) + (m.data 2 * m.data 14)))
      (-((m.data 4 * m.data 12) + (m.data 5 * m.data 13) + (m.data 6 * m.data 14)))
      (-((m.data 8 * m.data 12) + (m.data 9 * m.data 13) + (m.data 10 * m.data 14)))
      1 := by
  ext k; fin_cases k <;> rfl

/-- C12, the code at a failing input: for the scale `(2,1,1)`, no translation and
the unit quaternion, `createTransform(t, s, q) * invertTransform(createTransform(t,
s, q))` has `4` at index 0 and is not the identity matrix. -/
theorem invertTransform_scaled_not_inverse :
    (createTransform (VEC3_ZERO : Vector3 ℚ) ⟨2, 1, 1⟩ QUAT_UNIT
        * invertTransform (createTransform (VEC3_ZERO : Vector3 ℚ) ⟨2, 1, 1⟩ QUAT_UNIT)).get 0 = 4
      ∧ createTransform (VEC3_ZERO : Vector3 ℚ) ⟨2, 1, 1⟩ QUAT_UNIT
          * invertTransform (createTransform (VEC3_ZERO : Vector3 ℚ) ⟨2, 1, 1⟩ QUAT_UNIT)
          ≠ identity := by
  have h0 : (createTransform (VEC3_ZERO : Vector3 ℚ) ⟨2, 1, 1⟩ QUAT_UNIT
      * invertTransform (createTransform (VEC3_ZERO : Vector3 ℚ) ⟨2, 1, 1⟩ QUAT_UNIT)).get 0
      = 4 := by
    simp only [Matrix44.get, invertTransform_eq, createTransform_eq, Matrix44.mul_eq,
      Matrix44.ofEntries_data_0, Matrix44.ofEntries_data_1, Matrix44.ofEntries_data_2,
      Matrix44.ofEntries_data_3, Matrix44.ofEntries_data_4, Matrix44.ofEntries_data_8,
      Matrix44.ofEntries_data_12, VEC3_ZERO, QUAT_UNIT]
    norm_num
  refine ⟨h0, ?_⟩
  intro h
  rw [h] at h0
  have h1 : (identity : Matrix44 ℚ).get 0 = 1 := rfl
  rw [h1] at h0
  norm_num at h0

/-- The rigid case: with the scale `(1,1,1)` and a unit quaternion,
`invertTransform` gives a right inverse of `createTransform(t, s, q)`. -/
theorem invertTransform_rigid [CommRing K] (t : Vector3 K) (q : Quaternion K)
    (hq : q.lengthSquared = 1) :
    createTransform t VEC3_ONE q * invertTransform (createTransform t VEC3_ONE q) = identity := by
  unfold Quaternion.lengthSquared at hq
  simp only [invertTransform_eq, createTransform_eq, Matrix44.mul_eq, Matrix44.identity_eq,
    Matrix44.ofEntries_data_0, Matrix44.ofEntries_data_1, Matrix44.ofEntries_data_2,
    Matrix44.ofEntries_data_3, Matrix44.ofEntries_data_4, Matrix44.ofEntries_data_5,
    Matrix44.ofEntries_data_6, Matrix44.ofEntries_data_7, Matrix44.ofEntries_data_8,
    Matrix44.ofEntries_data_9, Matrix44.ofEntries_data_10, Matrix44.ofEntries_data_11,
    Matrix44.ofEntries_data_12, Matrix44.ofEntries_data_13, Matrix44.ofEntries_data_14,
    Matrix44.ofEntries_data_15, VEC3_ONE]
  apply Matrix44.ofEntries_congr
  case h0 => linear_combination (4 * (q.y * q.y + q.z * q.z)) * hq
  case h5 => linear_combination (4 * (q.x * q.x + q.z * q.z)) * hq
  case h10 => linear_combination (4 * (q.x * q.x + q.y * q.y)) * hq
  case h1 => linear_combination (-4 * (q.x * q.y)) * hq
  case h4 => linear_combination (-4 * (q.x * q.y)) * hq
  case h2 => linear_combination (-4 * (q.x * q.z)) * hq
  case h8 => linear_combination (-4 * (q.x * q.z)) * hq
  case h6 => linear_combination (-4 * (q.y * q.z)) * hq
  case h9 => linear_combination (-4 * (q.y * q.z)) * hq
  all_goals ring

end more

section rotations
variable {K : Type}

theorem Quaternion.lengthSquared_mul [CommRing K] (q0 q1 : Quaternion K) :
    (q0 * q1).lengthSquared = q0.lengthSquared * q1.lengthSquared := by
  simp only [Quaternion.lengthSquared, Quaternion.mul_x, Quaternion.mul_y, Quaternion.mul_z,
    Quaternion.mul_w]
  ring

theorem createTransform_rotation_of_unit [CommRing K] (q : Quaternion K)
    (hq : q.lengthSquared = 1) :
    createTransform VEC3_ZERO VEC3_ONE q = ofEntries
      (q.w * q.w + q.x * q.x - q.y * q.y - q.z * q.z)
      (2 * (q.x * q.y + q.z * q.w))
      (2 * (q.x * q.z - q.y * q.w))
      0
      (2 * (q.x * q.y - q.z * q.w))
      (q.w * q.w - q.x * q.x + q.y * q.y - q.z * q.z)
      (2 * (q.y * q.z + q.x * q.w))
      0
      (2 * (q.x * q.z + q.y * q.w))
      (2 * (q.y * q.z - q.x * q.w))
      (q.w * q.w - q.x * q.x - q.y * q.y + q.z * q.z)
      0 0 0 0 1 := by
  unfold Quaternion.lengthSquared at hq
  rw [createTransform_eq]
  simp only [VEC3_ONE, VEC3_ZERO]
  apply Matrix44.ofEntries_congr
  case h0 => linear_combination (-1 : K) * hq
  case h5 => linear_combination (-1 : K) * hq
  case h10 => linear_combination (-1 : K) * hq
  all_goals ring

/-- C14: for unit quaternions, the transform matrix of the product `q0 * q1` is
the product of the transform matrices of `q0` and of `q1`, in that order. -/
theorem createTransform_quaternion_mul [CommRing K] (q0 q1 : Quaternion K)
    (h0 : q0.lengthSquared = 1) (h1 : q1.lengthSquared = 1) :
    createTransform VEC3_ZERO VEC3_ONE (q0 * q1)
      = createTransform VEC3_ZERO VEC3_ONE q0 * createTransform VEC3_ZERO VEC3_ONE q1 := by
  have h01 : (q0 * q1).lengthSquared = 1 := by
    rw [Quaternion.lengthSquared_mul, h0, h1, mul_one]
  rw [createTransform_rotation_of_unit _ h01, createTransform_rotation_of_unit _ h0,
    createTransform_rotation_of_unit _ h1, Matrix44.mul_eq]
  simp only [Matrix44.ofEntries_data_0, Matrix44.ofEntries_data_1, Matrix44.ofEntries_data_2,
    Matrix44.ofEntries_data_3, Matrix44.ofEntries_data_4, Matrix44.ofEntries_data_5,
    Matrix44.ofEntries_data_6, Matrix44.ofEntries_data_7, Matrix44.ofEntries_data_8,
    Matrix44.ofEntries_data_9, Matrix44.ofEntries_data_10, Matrix44.ofEntries_data_11,
    Matrix44.ofEntries_data_12, Matrix44.ofEntries_data_13, Matrix44.ofEntries_data_14,
    Matrix44.ofEntries_data_15, Quaternion.mul_x, Quaternion.mul_y, Quaternion.mul_z,
    Quaternion.mul_w]
  apply Matrix44.ofEntries_congr <;> ring

/-- Witness for C14: two unit quaternions with rational components. -/
theorem createTransform_quaternion_mul_witness :
    (⟨0, 0, 3 / 5, 4 / 5⟩ : Quaternion ℚ).lengthSquared = 1
      ∧ (⟨3 / 5, 0, 0, 4 / 5⟩ : Quaternion ℚ).lengthSquared = 1
      ∧ createTransform VEC3_ZERO VEC3_ONE
          ((⟨0, 0, 3 / 5, 4 / 5⟩ : Quaternion ℚ) * ⟨3 / 5, 0, 0, 4 / 5⟩)
        = createTransform VEC3_ZERO VEC3_ONE (⟨0, 0, 3 / 5, 4 / 5⟩ : Quaternion ℚ)
            * createTransform VEC3_ZERO VEC3_ONE (⟨3 / 5, 0, 0, 4 / 5⟩ : Quaternion ℚ) :=
  have h0 : (⟨0, 0, 3 / 5, 4 / 5⟩ : Quaternion ℚ).lengthSquared = 1 := by
    norm_num [Quaternion.lengthSquared]
  have h1 : (⟨3 / 5, 0, 0, 4 / 5⟩ : Quaternion ℚ).lengthSquared = 1 := by
    norm_num [Quaternion.lengthSquared]
  ⟨h0, h1, createTransform_quaternion_mul _ _ h0 h1⟩

/-- The order in which `rotate` composes: rotating by `q0 * q1` applies `q1`
first and `q0` second. -/
theorem rotate_mul_reversed [CommRing K] (v : Vector3 K) (q0 q1 : Quaternion K) :
    rotate v (q0 * q1) = rotate (rotate v q1) q0 := by
  simp only [rotate, conjugate, Quaternion.mul_x, Quaternion.mul_y, Quaternion.mul_z,
    Quaternion.mul_w, Vector3.mk.injEq]
  refine ⟨?_, ?_, ?_⟩ <;> ring

/-- C13, the code at a failing input: for the unit quaternions `q0 = (0, 0, 3/5,
4/5)` and `q1 = (3/5, 0, 0, 4/5)` and `v = (1, 0, 0)`, rotating by `q0 * q1`
differs from applying `q0` first and `q1` second. -/
theorem rotate_mul_failing_input :
    rotate (⟨1, 0, 0⟩ : Vector3 ℚ) ((⟨0, 0, 3 / 5, 4 / 5⟩ : Quaternion ℚ) * ⟨3 / 5, 0, 0, 4 / 5⟩)
        = ⟨7 / 25, -24 / 25, 0⟩
      ∧ rotate (rotate (⟨1, 0, 0⟩ : Vector3 ℚ) ⟨0, 0, 3 / 5, 4 / 5⟩) ⟨3 / 5, 0, 0, 4 / 5⟩
        = ⟨7 / 25, -168 / 625, 576 / 625⟩
      ∧ rotate (⟨1, 0, 0⟩ : Vector3 ℚ)
          ((⟨0, 0, 3 / 5, 4 / 5⟩ : Quaternion ℚ) * ⟨3 / 5, 0, 0, 4 / 5⟩)
        ≠ rotate (rotate (⟨1, 0, 0⟩ : Vector3 ℚ) ⟨0, 0, 3 / 5, 4 / 5⟩) ⟨3 / 5, 0, 0, 4 / 5⟩ := by
  have ha : rotate (⟨1, 0, 0⟩ : Vector3 ℚ)
      ((⟨0, 0, 3 / 5, 4 / 5⟩ : Quaternion ℚ) * ⟨3 / 5, 0, 0, 4 / 5⟩)
      = ⟨7 / 25, -24 / 25, 0⟩ := by
    simp only [rotate, conjugate, Quaternion.mul_x, Quaternion.mul_y, Quaternion.mul_z,
      Quaternion.mul_w, Vector3.mk.injEq]
    norm_num
  have hb : rotate (rotate (⟨1, 0, 0⟩ : Vector3 ℚ) ⟨0, 0, 3 / 5, 4 / 5⟩) ⟨3 / 5, 0, 0, 4 / 5⟩
      = ⟨7 / 25, -168 / 625, 576 / 625⟩ := by
    simp only [rotate, conjugate, Quaternion.mul_x, Quaternion.mul_y, Quaternion.mul_z,
      Quaternion.mul_w, Vector3.mk.injEq]
    norm_num
  refine ⟨ha, hb, ?_⟩
  rw [ha, hb]
  intro h
  have hz := congrArg Vector3.z h
  norm_num at hz

theorem Matrix44.isAffine_mul [CommRing K] (a b : Matrix44 K) (ha : a.IsAffine)
    (hb : b.IsAffine) : (a * b).IsAffine := by
  obtain ⟨a3, a7, a11, a15⟩ := ha
  obtain ⟨b3, b7, b11, b15⟩ := hb
  simp only [Matrix44.get] at a3 a7 a11 a15 b3 b7 b11 b15
  simp only [Matrix44.IsAffine, Matrix44.get, Matrix44.mul_eq, Matrix44.ofEntries_data_3,
    Matrix44.ofEntries_data_7, Matrix44.ofEntries_data_11, Matrix44.ofEntries_data_15,
    a3, a7, a11, a15, b3, b7, b11, b15]
  simp

theorem createTransform_isAffine [CommRing K] (t s : Vector3 K) (q : Quaternion K) :
    (createTransform t s q).IsAffine :=
  ⟨rfl, rfl, rfl, rfl⟩

/-- C16: a matrix returned by `createTransform` is affine, the product of two
affine matrices is affine, and so is the product of the local transforms along
any parent chain, from the root down. -/
theorem createTransform_affine [CommRing K] :
    (∀ (t s : Vector3 K) (q : Quaternion K), (createTransform t s q).IsAffine)
      ∧ (∀ a b : Matrix44 K, a.IsAffine → b.IsAffine → (a * b).IsAffine)
      ∧ (∀ (root : Vector3 K × Vector3 K × Quaternion K)
            (chain : List (Vector3 K × Vector3 K × Quaternion K)),
          (chain.foldl (fun world l => world * createTransform l.1 l.2.1 l.2.2)
            (createTransform root.1 root.2.1 root.2.2)).IsAffine) := by
  refine ⟨createTransform_isAffine, Matrix44.isAffine_mul, ?_⟩
  intro root chain
  have key : ∀ (w : Matrix44 K), w.IsAffine →
      (chain.foldl (fun world l => world * createTransform l.1 l.2.1 l.2.2) w).IsAffine := by
    induction chain with
    | nil => intro w hw; exact hw
    | cons l chain ih =>
      intro w hw
      exact ih _ (Matrix44.isAffine_mul _ _ hw (createTransform_isAffine _ _ _))
  exact key _ (createTransform_isAffine _ _ _)

/-- Witness for C16: the product of a scaling and a translation. -/
theorem createTransform_affine_witness :
    (createTransform (VEC3_ZERO : Vector3 ℚ) ⟨2, 3, 4⟩ QUAT_UNIT).IsAffine
      ∧ (createTransform (⟨1, 2, 3⟩ : Vector3 ℚ) VEC3_ONE QUAT_UNIT).IsAffine
      ∧ (createTransform (VEC3_ZERO : Vector3 ℚ) ⟨2, 3, 4⟩ QUAT_UNIT
          * createTransform (⟨1, 2, 3⟩ : Vector3 ℚ) VEC3_ONE QUAT_UNIT).IsAffine :=
  ⟨⟨rfl, rfl, rfl, rfl⟩, ⟨rfl, rfl, rfl, rfl⟩,
    createTransform_affine.2.1 _ _ ⟨rfl, rfl, rfl, rfl⟩ ⟨rfl, rfl, rfl, rfl⟩⟩

end rotations

end maths
end bkk
